import Mathlib

/-!
Verification of the zsync core delta-reconstruction engine
(src/src/ZsyncCoreJob_p.cc of AppImageUpdaterBridge).

The C++ code is shallowly embedded: byte buffers are lists of naturals
(each < 256 for genuine bytes), 16-bit wraparound arithmetic is explicit
modulo 2^16, 32-bit arithmetic (MD4) is explicit modulo 2^32, the mutable
per-job state (block hash table, rsum hash buckets, bit-hash, known
ranges, rover, target file handle) is a record threaded through the
operations, and the scanner loops carry explicit fuel so that every
definition is total and executable.

Naming follows the source: calc_rsum_block, update_rsum (the UPDATE_RSUM
macro), parseTargetFileCheckSumBlocks, buildHash, calcRHash,
checkCheckSumsOnHashChain, submitSourceData, submitSourceFile,
rangeBeforeBlock, addToRanges, nextKnownBlock, writeBlocks,
getRequiredRanges, runJob (the function operator).
-/

/-! ## Rolling checksum (calc_rsum_block and the UPDATE_RSUM macro) -/

/-- The rolling checksum pair, C struct rsum with two unsigned short fields. -/
structure Rsum where
  a : Nat
  b : Nat
deriving DecidableEq, Repr

/-- Wraparound of C unsigned short arithmetic computed in int: value modulo 2^16. -/
def m16 (x : Int) : Nat := (x % 65536).toNat

/-- Loop body of calc_rsum_block: a += c; b += len * c; len--, all on
unsigned short accumulators. -/
def rsumLoop : List Nat → Nat → Nat → Nat → Rsum
  | [], a, b, _ => ⟨a, b⟩
  | c :: rest, a, b, len => rsumLoop rest ((a + c) % 65536) ((b + len * c) % 65536) (len - 1)

/-- calc_rsum_block: the fresh rolling checksum of a data block. -/
def calc_rsum_block (data : List Nat) : Rsum :=
  rsumLoop data 0 0 data.length

/-- The UPDATE_RSUM macro: a += (uchar)newc - (uchar)oldc;
b += a - (oldc << bshift).  The a line casts both bytes to unsigned char
(hence the % 256); the b line uses the caller's oldc unchanged, which at
every call site is already an unsigned char. -/
def update_rsum (r : Rsum) (oldc newc : Nat) (bshift : Nat) : Rsum :=
  let a2 := m16 ((r.a : Int) + (newc % 256 : Nat) - (oldc % 256 : Nat))
  let b2 := m16 ((r.b : Int) + (a2 : Int) - ((oldc <<< bshift : Nat) : Int))
  ⟨a2, b2⟩

/-- Fuel-structural floor base-2 logarithm (n halves each step, so n
rounds of fuel suffice); agrees with Nat.log2 (proved below). -/
def log2Aux : Nat → Nat → Nat
  | 0, _ => 0
  | fuel + 1, n => if n ≥ 2 then log2Aux fuel (n / 2) + 1 else 0

/-- Floor base-2 logarithm, executable in the kernel. -/
def log2floor (n : Nat) : Nat := log2Aux n n

/-- The constructor's block shift: blockSize == 1024 ? 10 : blockSize == 2048
? 11 : log2(blockSize); the C log2 on a positive integer truncates to the
floor. -/
def blockShiftOf (blockSize : Nat) : Nat :=
  if blockSize = 1024 then 10 else if blockSize = 2048 then 11 else log2floor blockSize

/-- The constructor's weak checksum mask: weakCheckSumBytes < 3 ? 0 :
weakCheckSumBytes == 3 ? 0xff : 0xffff. -/
def weakMaskOf (weakBytes : Nat) : Nat :=
  if weakBytes < 3 then 0 else if weakBytes = 3 then 255 else 65535

/-- Exact (unreduced) weighted sum Σ (len - i) * c_i of a block; the b
component of the rolling checksum before 16-bit truncation. -/
def wsum : List Nat → Nat
  | [] => 0
  | c :: rest => (rest.length + 1) * c + wsum rest

/-! ## Known-range set (rangeBeforeBlock, addToRanges, nextKnownBlock) -/

/-- Default pair for out-of-bounds range reads (the C code never performs
them on the reachable states). -/
def dPair : Int × Int := (0, 0)

/-- Bisection loop of rangeBeforeBlock.  The source divides (max+min)/2 in
C int division; every reachable call has 0 <= min and min <= max, where C
truncating division agrees with Euclidean division. -/
def rangeBeforeBlockAux (l : List (Int × Int)) (x : Int) :
    Nat → Int → Int → Int
  | 0, min, _ => min
  | fuel + 1, min, max =>
    if min ≤ max then
      let r := (max + min) / 2
      if x > (l.getD r.toNat dPair).2 then rangeBeforeBlockAux l x fuel (r + 1) max
      else if x < (l.getD r.toNat dPair).1 then rangeBeforeBlockAux l x fuel min (r - 1)
      else -1
    else min

/-- rangeBeforeBlock: -1 if x lies inside a stored range, else the number
of ranges entirely before x (0-based insertion point).  The bisection
strictly shrinks max + 1 - min each iteration, so l.length + 1 rounds of
fuel always suffice (proved below). -/
def rangeBeforeBlock (l : List (Int × Int)) (x : Int) : Int :=
  rangeBeforeBlockAux l x (l.length + 1) 0 ((l.length : Int) - 1)

/-- addToRanges: mark block id x as known, merging with neighbours.  The
source works on a flat array _pRanges of 2 * _nRanges ints; a pair
(lo, hi) here is the slots 2i and 2i+1 there, and the memmove calls are
the corresponding list splices. -/
def addToRanges (l : List (Int × Int)) (x : Int) : List (Int × Int) :=
  let r := rangeBeforeBlock l x
  if r = -1 then l
  else
    let rn := r.toNat
    let n := l.length
    if rn > 0 ∧ rn < n ∧ (l.getD (rn - 1) dPair).2 = x - 1 ∧ (l.getD rn dPair).1 = x + 1 then
      l.take (rn - 1) ++ [((l.getD (rn - 1) dPair).1, (l.getD rn dPair).2)] ++ l.drop (rn + 1)
    else if rn > 0 ∧ n ≠ 0 ∧ (l.getD (rn - 1) dPair).2 = x - 1 then
      l.set (rn - 1) ((l.getD (rn - 1) dPair).1, x)
    else if rn < n ∧ (l.getD rn dPair).1 = x + 1 then
      l.set rn (x, (l.getD rn dPair).2)
    else
      l.take rn ++ [(x, x)] ++ l.drop rn

/-- alreadyGotBlock: block x is already known. -/
def alreadyGotBlock (l : List (Int × Int)) (x : Int) : Bool :=
  rangeBeforeBlock l x = -1

/-- nextKnownBlock: x itself if known, else the first block of the next
known range, else _nBlocks. -/
def nextKnownBlock (l : List (Int × Int)) (blocks : Int) (x : Int) : Int :=
  let r := rangeBeforeBlock l x
  if r = -1 then x
  else if r = (l.length : Int) then blocks
  else (l.getD r.toNat dPair).1

/-- Well-formedness of the known-range set: ranges are nonempty inclusive
intervals, pairwise sorted, disjoint and non-adjacent (hi + 1 < next lo). -/
def RangesWF (l : List (Int × Int)) : Prop :=
  (∀ p ∈ l, p.1 ≤ p.2) ∧ l.Pairwise (fun p q => p.2 + 1 < q.1)

/-- Membership of a block id in the union of the stored ranges. -/
def coveredR (l : List (Int × Int)) (x : Int) : Prop :=
  ∃ p ∈ l, p.1 ≤ x ∧ x ≤ p.2

/-! ## MD4 (QCryptographicHash::Md4, RFC 1320) -/

/-- 32-bit truncation. -/
def m32 (x : Nat) : Nat := x % 4294967296

/-- 32-bit left rotation. -/
def rotl32 (x s : Nat) : Nat :=
  m32 ((x <<< s) + (x >>> (32 - s)))

/-- MD4 round 1 function F(b,c,d) = (b AND c) OR ((NOT b) AND d). -/
def md4F (b c d : Nat) : Nat := (b &&& c) ||| ((b ^^^ 4294967295) &&& d)

/-- MD4 round 2 function G(b,c,d) = (b AND c) OR (b AND d) OR (c AND d). -/
def md4G (b c d : Nat) : Nat := (b &&& c) ||| (b &&& d) ||| (c &&& d)

/-- MD4 round 3 function H(b,c,d) = b XOR c XOR d. -/
def md4H (b c d : Nat) : Nat := b ^^^ c ^^^ d

/-- Assemble a little-endian 32-bit word from four bytes. -/
def word32 (b0 b1 b2 b3 : Nat) : Nat := b0 + 256 * b1 + 65536 * b2 + 16777216 * b3

/-- Split a 64-byte chunk into sixteen little-endian 32-bit words. -/
def md4Words (chunk : List Nat) : List Nat :=
  (List.range 16).map fun k =>
    word32 (chunk.getD (4 * k) 0) (chunk.getD (4 * k + 1) 0)
      (chunk.getD (4 * k + 2) 0) (chunk.getD (4 * k + 3) 0)

/-- One MD4 step: the running quadruple (a,b,c,d) is rewritten so that the
next step again operates on its first component. -/
def md4Step (f : Nat → Nat → Nat → Nat) (cst : Nat) (x : List Nat)
    (st : Nat × Nat × Nat × Nat) (ks : Nat × Nat) : Nat × Nat × Nat × Nat :=
  match st with
  | (a, b, c, d) => (d, rotl32 (m32 (a + f b c d + x.getD ks.1 0 + cst)) ks.2, b, c)

/-- The (word index, shift) schedule of the three MD4 rounds. -/
def md4Sched : List ((Nat → Nat → Nat → Nat) × Nat × List (Nat × Nat)) :=
  [ (md4F, 0,
      [(0,3),(1,7),(2,11),(3,19),(4,3),(5,7),(6,11),(7,19),
       (8,3),(9,7),(10,11),(11,19),(12,3),(13,7),(14,11),(15,19)]),
    (md4G, 1518500249,
      [(0,3),(4,5),(8,9),(12,13),(1,3),(5,5),(9,9),(13,13),
       (2,3),(6,5),(10,9),(14,13),(3,3),(7,5),(11,9),(15,13)]),
    (md4H, 1859775393,
      [(0,3),(8,9),(4,11),(12,15),(2,3),(10,9),(6,11),(14,15),
       (1,3),(9,9),(5,11),(13,15),(3,3),(11,9),(7,11),(15,15)]) ]

/-- Process one 64-byte chunk into the running MD4 state. -/
def md4Chunk (st : Nat × Nat × Nat × Nat) (chunk : List Nat) : Nat × Nat × Nat × Nat :=
  let x := md4Words chunk
  let fin := md4Sched.foldl (fun acc round => round.2.2.foldl (md4Step round.1 round.2.1 x) acc) st
  match st, fin with
  | (a, b, c, d), (a2, b2, c2, d2) => (m32 (a + a2), m32 (b + b2), m32 (c + c2), m32 (d + d2))

/-- Recursion core of the 64-byte chunking, structural in a fuel bound. -/
def chunks64Aux : Nat → List Nat → List (List Nat)
  | _, [] => []
  | 0, _ :: _ => []
  | fuel + 1, c :: l => (c :: l).take 64 :: chunks64Aux fuel ((c :: l).drop 64)

/-- Split a byte list into 64-byte chunks (every chunk consumes at least
one byte, so length rounds of fuel suffice). -/
def chunks64 (l : List Nat) : List (List Nat) := chunks64Aux l.length l

/-- MD4 padding: 0x80, zeros to 56 mod 64, then the bit length as a
little-endian 64-bit quantity. -/
def md4Pad (msg : List Nat) : List Nat :=
  let n := msg.length
  let padLen := (119 - n % 64) % 64 + 1
  let bits := 8 * n
  msg ++ (128 :: List.replicate (padLen - 1) 0) ++
    (List.range 8).map (fun k => (bits >>> (8 * k)) % 256)

/-- Serialize a 32-bit word to four little-endian bytes. -/
def le32 (w : Nat) : List Nat := [w % 256, (w >>> 8) % 256, (w >>> 16) % 256, (w >>> 24) % 256]

/-- MD4 digest (16 bytes) of a byte list. -/
def md4 (msg : List Nat) : List Nat :=
  let fin := (chunks64 (md4Pad msg)).foldl md4Chunk
    (1732584193, 4023233417, 2562383102, 271733878)
  match fin with
  | (a, b, c, d) => le32 a ++ le32 b ++ le32 c ++ le32 d

/-! ## Job data model -/

/-- Per-block entry of the block hash table (struct hash_entry).  The C
next pointer into the entry array is an optional index; checksum is the
16-byte md4 buffer of which only the first strongCheckSumBytes take part
in comparisons. -/
structure HashEntry where
  r : Rsum
  checksum : List Nat
  next : Option Nat
deriving DecidableEq, Repr

/-- The calloc-zeroed hash entry (also the sentinel entries that follow
the blocks in the table). -/
def dEntry : HashEntry := ⟨⟨0, 0⟩, List.replicate 16 0, none⟩

/-- The immutable job parameters (ZsyncCoreJobPrivate::Information). -/
structure JobInfo where
  blockSize : Nat
  blocks : Nat
  blockIdOffset : Nat
  weakBytes : Nat
  strongBytes : Nat
  seqMatches : Nat
deriving DecidableEq, Repr

/-- _nContext = blockSize * seqMatches. -/
def contextOf (p : JobInfo) : Nat := p.blockSize * p.seqMatches

/-- The job's weak mask (constructor line computing _pWeakCheckSumMask). -/
def pMask (p : JobInfo) : Nat := weakMaskOf p.weakBytes

/-- The job's block shift (constructor line computing _nBlockShift). -/
def pShift (p : JobInfo) : Nat := blockShiftOf p.blockSize

/-- The target file handle: a cursor plus the ordered log of positioned
writes performed so far (later writes override earlier ones). -/
structure TFile where
  pos : Int
  writes : List (Int × List Nat)
deriving DecidableEq, Repr

/-- QFile seek: reposition the cursor. -/
def fseek (f : TFile) (o : Int) : TFile := { f with pos := o }

/-- QFile write at the current cursor: log the bytes and advance. -/
def fwrite (f : TFile) (bytes : List Nat) : TFile :=
  { pos := f.pos + bytes.length, writes := f.writes ++ [(f.pos, bytes)] }

/-- Byte content of the target file produced by a write log: the last
write covering an offset wins; none where never written. -/
def applyWrites : List (Int × List Nat) → Int → Option Nat
  | [], _ => none
  | (o, bs) :: rest, q =>
    match applyWrites rest q with
    | some v => some v
    | none => if o ≤ q ∧ q < o + bs.length then some (bs.getD (q - o).toNat 0) else none

/-- The mutable per-job state threaded through the engine. -/
structure ScanState where
  blockHashes : Array HashEntry
  hashBuilt : Bool
  rsumHash : Array (Option Nat)
  hashMask : Nat
  bitHash : Array Nat
  bitHashMask : Nat
  ranges : List (Int × Int)
  rover : Option Nat
  nextMatch : Option Nat
  nNextKnown : Int
  skip : Nat
  curFirst : Rsum
  curSecond : Rsum
  file : TFile
  blockWrites : List (Nat × List Nat)
deriving DecidableEq, Repr

/-- Fresh job state as created by the constructor: the block hash table is
calloc-zeroed with seqMatches sentinel slots after the blocks, no rsum
hash or bit-hash yet, empty range set, target cursor at 0.  The header
with the in-class member initializers is not part of the sources; per the
spec the scan caches start cleared (nNextKnown is the cache the spec notes
may be read before first population; it starts at 0 here). -/
def initState (p : JobInfo) : ScanState where
  blockHashes := Array.mkArray (p.blocks + p.seqMatches) dEntry
  hashBuilt := false
  rsumHash := #[]
  hashMask := 0
  bitHash := #[]
  bitHashMask := 0
  ranges := []
  rover := none
  nextMatch := none
  nNextKnown := 0
  skip := 0
  curFirst := ⟨0, 0⟩
  curSecond := ⟨0, 0⟩
  file := ⟨0, []⟩
  blockWrites := []

/-! ## Error codes (the header enum is not in the sources; the spec fixes
0 = success and distinct small integers for the rest). -/

/-- HASH_TABLE_NOT_ALLOCATED. -/
def eHashTableNotAllocated : Nat := 1

/-- INVALID_TARGET_FILE_CHECKSUM_BLOCKS. -/
def eInvalidChecksumBlocks : Nat := 2

/-- CANNOT_OPEN_TARGET_FILE_CHECKSUM_BLOCKS. -/
def eCannotOpenChecksumBlocks : Nat := 3

/-- QBUFFER_IO_READ_ERROR. -/
def eQBufferReadFailed : Nat := 4

/-- SOURCE_FILE_NOT_FOUND. -/
def eSourceFileNotFound : Nat := 5

/-- NO_PERMISSION_TO_READ_SOURCE_FILE. -/
def eNoPermissionToRead : Nat := 6

/-- CANNOT_OPEN_SOURCE_FILE. -/
def eCannotOpenSourceFile : Nat := 7

/-! ## Checksum stream parsing (parseTargetFileCheckSumBlocks) -/

/-- One QBuffer read of k requested bytes at a position: the returned
byte count is min k remaining. -/
def readCount (streamLen pos k : Nat) : Nat := Nat.min k (streamLen - pos)

/-- Per-block parse loop.  Each record is read in two QBuffer reads: first
weakBytes bytes landing at offset 4 - weakBytes of a zero-initialised
4-byte field aliasing the rsum pair (big-endian a then b, swapped to host
order), then strongBytes bytes of MD4 prefix.  A read returning fewer
than 1 byte aborts with QBUFFER_IO_READ_ERROR.  The C stack buffer bytes
beyond a short strong read are indeterminate; they are modelled as 0
(no claim depends on them). -/
def parseLoop (p : JobInfo) (str : List Nat) :
    Nat → Nat → Nat → Array HashEntry → Except Nat (Array HashEntry)
  | 0, _, _, bh => Except.ok bh
  | count + 1, id, pos, bh =>
    let cw := readCount str.length pos p.weakBytes
    if cw < 1 then Except.error eQBufferReadFailed
    else
      let gotW := (str.drop pos).take cw
      let pos2 := pos + cw
      let cs := readCount str.length pos2 p.strongBytes
      if cs < 1 then Except.error eQBufferReadFailed
      else
        let gotS := (str.drop pos2).take cs
        let field := (List.replicate (4 - p.weakBytes) 0 ++ gotW ++ List.replicate 4 0).take 4
        let a := field.getD 0 0 * 256 + field.getD 1 0
        let b := field.getD 2 0 * 256 + field.getD 3 0
        let e := bh.getD id dEntry
        let e2 : HashEntry := ⟨⟨a &&& pMask p, b⟩, (gotS ++ List.replicate 16 0).take 16, e.next⟩
        parseLoop p str count (id + 1) (pos2 + cs) (bh.setD id e2)

/-- parseTargetFileCheckSumBlocks.  The block hash table is always
allocated in this model (Lean allocation cannot fail), so the
HASH_TABLE_NOT_ALLOCATED branch is unreachable; a missing stream is the
null pointer case.  On success any previously built rsum hash tables are
discarded. -/
def parseTargetFileCheckSumBlocks (p : JobInfo) (stream : Option (List Nat))
    (canOpen : Bool) (s : ScanState) : Except Nat ScanState :=
  match stream with
  | none => Except.error eInvalidChecksumBlocks
  | some str =>
    if str.length < p.weakBytes + p.strongBytes then Except.error eInvalidChecksumBlocks
    else if ¬canOpen then Except.error eCannotOpenChecksumBlocks
    else
      match parseLoop p str p.blocks 0 0 s.blockHashes with
      | Except.error e => Except.error e
      | Except.ok bh =>
        Except.ok { s with blockHashes := bh, hashBuilt := false, rsumHash := #[], bitHash := #[] }

/-! ## Rsum hash and bit-hash construction (buildHash, calcRHash) -/

/-- calcRHash: h = e[0].r.b ^ ((seqMatches > 1 ? e[1].r.b : e[0].r.a &
mask) << BITHASHBITS), with BITHASHBITS = 3. -/
def calcRHash (p : JobInfo) (bh : Array HashEntry) (id : Nat) : Nat :=
  (bh.getD id dEntry).r.b ^^^
    ((if p.seqMatches > 1 then (bh.getD (id + 1) dEntry).r.b
      else (bh.getD id dEntry).r.a &&& pMask p) <<< 3)

/-- The exponent selection loop of buildHash: i starts at 16 and is
decremented while (2 << (i-1)) > blocks and i > 4. -/
def hashExpLoop (blocks : Nat) : Nat → Nat
  | 0 => 0
  | i + 1 => if 2 <<< (i + 1 - 1) > blocks ∧ i + 1 > 4 then hashExpLoop blocks i else i + 1

/-- The exponent i chosen by buildHash. -/
def hashExp (blocks : Nat) : Nat := hashExpLoop blocks 16

/-- The insertion loop of buildHash: ids from blocks-1 down to 0 are
prepended to their bucket's chain and their bit is set in the bit-hash. -/
def buildHashInsert (p : JobInfo) (hm bm : Nat) :
    Nat → Array HashEntry → Array (Option Nat) → Array Nat →
    Array HashEntry × Array (Option Nat) × Array Nat
  | 0, bh, rh, bit => (bh, rh, bit)
  | n + 1, bh, rh, bit =>
    let id := n
    let h := calcRHash p bh id
    let e := bh.getD id dEntry
    let bh2 := bh.setD id ⟨e.r, e.checksum, rh.getD (h &&& hm) none⟩
    let rh2 := rh.setD (h &&& hm) (some id)
    let bidx := (h &&& bm) >>> 3
    let bit2 := bit.setD bidx ((bit.getD bidx 0) ||| (1 <<< (h &&& 7)))
    buildHashInsert p hm bm n bh2 rh2 bit2

/-- buildHash: choose the exponent, allocate _pHashMask + 1 chain heads
and _pBitHashMask + 1 calloc bytes for the bit table, and fill both.
Allocation cannot fail in the model, so the 0-return paths are
unreachable. -/
def buildHash (p : JobInfo) (s : ScanState) : ScanState :=
  let i := hashExp p.blocks
  let hm := (2 <<< i) - 1
  let bm := (2 <<< (i + 3)) - 1
  let t := buildHashInsert p hm bm p.blocks s.blockHashes
    (Array.mkArray (hm + 1) none) (Array.mkArray (bm + 1) 0)
  { s with blockHashes := t.1, rsumHash := t.2.1, bitHash := t.2.2,
           hashMask := hm, bitHashMask := bm, hashBuilt := true }

/-! ## Block removal and the target writer (removeBlockFromHash, writeBlocks) -/

/-- Chain walk of removeBlockFromHash: returns the new head of the walked
link, the entry array with the predecessor link rewritten, and whether the
target was found.  Fuel bounds the walk (chains built by buildHash are
acyclic). -/
def removeChainAux (tgt : Nat) (tnext : Option Nat) :
    Nat → Array HashEntry → Option Nat → Option Nat × Array HashEntry × Bool
  | 0, bh, head => (head, bh, false)
  | _ + 1, bh, none => (none, bh, false)
  | fuel + 1, bh, some j =>
    if j = tgt then (tnext, bh, true)
    else
      let res := removeChainAux tgt tnext fuel bh (bh.getD j dEntry).next
      let e := res.2.1.getD j dEntry
      (some j, (res.2.1.setD j ⟨e.r, e.checksum, res.1⟩), res.2.2)

/-- removeBlockFromHash: unlink entry id from its bucket chain, advancing
the rover if it pointed at the removed entry. -/
def removeBlockFromHash (p : JobInfo) (s : ScanState) (id : Nat) : ScanState :=
  let t := s.blockHashes.getD id dEntry
  let h := calcRHash p s.blockHashes id &&& s.hashMask
  let res := removeChainAux id t.next (s.blockHashes.size + 1) s.blockHashes (s.rsumHash.getD h none)
  let rover2 := if res.2.2 ∧ s.rover = some id then t.next else s.rover
  { s with blockHashes := res.2.1, rsumHash := s.rsumHash.setD h res.1, rover := rover2 }

/-- The file side of writeBlocks: save the cursor, seek to the block
offset, write, seek back. -/
def writeBlocksFileOp (f : TFile) (offset : Int) (bytes : List Nat) : TFile :=
  let pos := f.pos
  fseek (fwrite (fseek f offset) bytes) pos

/-- writeBlocks(data, bfrom, bto) where data is the window starting at
offset x of the scanner buffer buf: write
(bto - bfrom + 1) << _nBlockShift bytes at byte offset
(bfrom + _nBlockIdOffset) << _nBlockShift preserving the cursor, then for
each id in [bfrom, bto] unlink it from the rsum hash and add it to the
known ranges.  blockWrites additionally logs, per written block id, the
blockSize window bytes the engine matched for it (the bytes the strong
check hashed). -/
def writeBlocks (p : JobInfo) (buf : List Nat) (x : Nat) (bfrom : Nat) (bto : Int)
    (s : ScanState) : ScanState :=
  let len : Int := (bto - (bfrom : Int) + 1) * (2 ^ pShift p)
  let offset : Int := ((bfrom : Int) + (p.blockIdOffset : Int)) * (2 ^ pShift p)
  let bytes := (buf.drop x).take len.toNat
  let cnt := (bto + 1 - (bfrom : Int)).toNat
  let s1 := { s with
    file := writeBlocksFileOp s.file offset bytes,
    blockWrites := s.blockWrites ++ (List.range cnt).map
      (fun k => (bfrom + k, (buf.drop (x + p.blockSize * k)).take p.blockSize)) }
  (List.range cnt).foldl (fun st k =>
    let st2 := removeBlockFromHash p st (bfrom + k)
    { st2 with ranges := addToRanges st2.ranges ((bfrom + k : Nat) : Int) }) s1

/-! ## Hash-chain matching (checkCheckSumsOnHashChain) -/

/-- The strong-check do-while of checkCheckSumsOnHashChain, starting at
check_md4 = check.  The MD4 of window block k is a pure function of the
buffer, so the md4sum memoisation across chain entries is
behaviour-preserving and elided.  Returns the final check_md4 counter and
the ok flag. -/
def verifyFrom (p : JobInfo) (bh : Array HashEntry) (buf : List Nat) (x id : Nat)
    (onlyone : Bool) : Nat → Nat → Nat × Bool
  | _, 0 => (0, false)
  | check, fuel + 1 =>
    let pass := (md4 ((buf.drop (x + p.blockSize * check)).take p.blockSize)).take p.strongBytes
      == ((bh.getD (id + check) dEntry).checksum).take p.strongBytes
    if pass then
      if ¬onlyone ∧ check + 1 < p.seqMatches then verifyFrom p bh buf x id onlyone (check + 1) fuel
      else (check + 1, true)
    else (check + 1, false)

/-- The on-success write step of the chain walk (the ok block of
checkCheckSumsOnHashChain): find next_known (the cache along the only_one
path, nextKnownBlock otherwise), pick the number of blocks to write and
the next-match hint, and write them.  Returns num_write_blocks and the
updated state. -/
def chainWriteStep (p : JobInfo) (buf : List Nat) (x : Nat) (oo : Bool) (id cnt : Nat)
    (s1 : ScanState) : Int × ScanState :=
  let nk : Int := if oo then s1.nNextKnown else nextKnownBlock s1.ranges (p.blocks : Int) (id : Int)
  let nw : Int × ScanState :=
    if nk > (id : Int) + (cnt : Int) then
      let sU := { s1 with
        nextMatch := some (id + cnt),
        nNextKnown := if oo then s1.nNextKnown else nk }
      ((cnt : Int), sU)
    else (nk - (id : Int), s1)
  (nw.1, writeBlocks p buf x id ((id : Int) + nw.1 - 1) nw.2)

/-- The chain walk of checkCheckSumsOnHashChain with the rover in the
state.  rs is the first current weak checksum, which no operation of the
walk mutates, so reading it from the running state each iteration equals
the C register copy taken at entry.  Returns the got_blocks count (a C
qint32, so an Int: the cached-next-known path can produce non-positive
write counts). -/
def checkChainAux (p : JobInfo) (buf : List Nat) (x : Nat) (onlyone : Bool) :
    Nat → ScanState → Int × ScanState
  | 0, s => (0, s)
  | fuel + 1, s =>
    match s.rover with
    | none => (0, s)
    | some eIdx =>
      let e := s.blockHashes.getD eIdx dEntry
      let s1 := { s with rover := if onlyone then none else e.next }
      let rs := s1.curFirst
      if e.r.a ≠ (rs.a &&& pMask p) ∨ e.r.b ≠ rs.b then
        checkChainAux p buf x onlyone fuel s1
      else
        let id := eIdx
        if ¬onlyone ∧ p.seqMatches > 1 ∧
            ((s1.blockHashes.getD (id + 1) dEntry).r.a ≠ (s1.curSecond.a &&& pMask p) ∨
             (s1.blockHashes.getD (id + 1) dEntry).r.b ≠ s1.curSecond.b) then
          checkChainAux p buf x onlyone fuel s1
        else
          let vr := verifyFrom p s1.blockHashes buf x id onlyone 0 (p.seqMatches + 1)
          if vr.2 then
            let ws := chainWriteStep p buf x onlyone id vr.1 s1
            let res := checkChainAux p buf x onlyone fuel ws.2
            (ws.1 + res.1, res.2)
          else checkChainAux p buf x onlyone fuel s1

/-- checkCheckSumsOnHashChain: clear the next-match hint, start the rover
at the given entry and walk the chain.  The fuel bound exceeds any
acyclic chain length. -/
def checkCheckSumsOnHashChain (p : JobInfo) (buf : List Nat) (x : Nat) (onlyone : Bool)
    (eIdx : Nat) (s : ScanState) : Int × ScanState :=
  checkChainAux p buf x onlyone (s.blockHashes.size + 1)
    { s with nextMatch := none, rover := some eIdx }

/-! ## Seed scanner (submitSourceData, submitSourceFile) -/

/-- The next-match fast path of the scanner loop (tried when the hint is
set and seqMatches > 1).  Returns (thismatch, blocks_matched, state). -/
def ssdFirstTry (p : JobInfo) (buf : List Nat) (x : Nat) (s : ScanState) :
    Int × Nat × ScanState :=
  match s.nextMatch with
  | some nm =>
    if p.seqMatches > 1 then
      let r := checkCheckSumsOnHashChain p buf x true nm s
      if r.1 ≠ 0 then (r.1, 1, r.2) else (r.1, 0, r.2)
    else (0, 0, s)
  | none => (0, 0, s)

/-- The bit-hash negative filter followed by the rsum-hash bucket lookup
and full chain walk. -/
def ssdLookup (p : JobInfo) (buf : List Nat) (x : Nat) (s1 : ScanState) :
    Int × Nat × ScanState :=
  let hash := s1.curFirst.b ^^^
    ((if p.seqMatches > 1 then s1.curSecond.b else s1.curFirst.a &&& pMask p) <<< 3)
  if (s1.bitHash.getD ((hash &&& s1.bitHashMask) >>> 3) 0) &&& (1 <<< (hash &&& 7)) ≠ 0 then
    match s1.rsumHash.getD (hash &&& s1.hashMask) none with
    | some e =>
      let r := checkCheckSumsOnHashChain p buf x false e s1
      if r.1 ≠ 0 then (r.1, p.seqMatches, r.2) else (r.1, 0, r.2)
    | none => (0, 0, s1)
  else (0, 0, s1)

/-- ssdIter composes the two attempts exactly as the loop body does. -/
def ssdIter (p : JobInfo) (buf : List Nat) (x : Nat) (s : ScanState) :
    Int × Nat × ScanState :=
  let fm := ssdFirstTry p buf x s
  if fm.1 = 0 then ssdLookup p buf x fm.2.2
  else fm

/-- The main scanner loop over window positions x, with fuel.  Returns
none only on fuel exhaustion (the termination theorem below shows
sufficient fuel always exists). -/
def submitSourceDataLoop (p : JobInfo) (buf : List Nat) (len : Nat) :
    Nat → Nat → Int → ScanState → Option (Int × ScanState)
  | 0, _, _, _ => none
  | fuel + 1, x, got, s =>
    if x + contextOf p = len then some (got, s)
    else
      let sm := ssdIter p buf x s
      let got2 := got + sm.1
      let s2 := sm.2.2
      let bm := sm.2.1
      if bm > 0 then
        let x2 := x + p.blockSize + (if bm > 1 then p.blockSize else 0)
        if x2 + contextOf p > len then
          some (got2, { s2 with skip := x2 + contextOf p - len })
        else
          let first2 := if p.seqMatches > 1 ∧ bm = 1 then s2.curSecond
            else calc_rsum_block ((buf.drop x2).take p.blockSize)
          let second2 := if p.seqMatches > 1 then
              calc_rsum_block ((buf.drop (x2 + p.blockSize)).take p.blockSize)
            else s2.curSecond
          submitSourceDataLoop p buf len fuel x2 got2
            { s2 with curFirst := first2, curSecond := second2 }
      else
        let oc := buf.getD x 0
        let nc := buf.getD (x + p.blockSize) 0
        let s3 := { s2 with
          curFirst := update_rsum s2.curFirst oc nc (pShift p),
          curSecond := if p.seqMatches > 1 then
              update_rsum s2.curSecond nc (buf.getD (x + 2 * p.blockSize) 0) (pShift p)
            else s2.curSecond }
        submitSourceDataLoop p buf len fuel (x + 1) got2 s3

/-- submitSourceData(data, len, offset): position the window (0 for a
fresh stream, the carried skip otherwise), recompute the rolling sums
when required, clear skip and run the loop. -/
def submitSourceData (p : JobInfo) (fuel : Nat) (buf : List Nat) (len : Nat)
    (offset : Nat) (s : ScanState) : Option (Int × ScanState) :=
  let x := if offset ≠ 0 then s.skip else 0
  let s1 := if offset = 0 then { s with nextMatch := none } else s
  let s2 := if x ≠ 0 ∨ offset = 0 then
      { s1 with
        curFirst := calc_rsum_block ((buf.drop x).take p.blockSize),
        curSecond := if p.seqMatches > 1 then
            calc_rsum_block ((buf.drop (x + p.blockSize)).take p.blockSize)
          else s1.curSecond }
    else s1
  submitSourceDataLoop p buf len fuel x 0 { s2 with skip := 0 }

/-- The refill loop of submitSourceFile.  pos is the seed read position
(QFile cursor), inOff the stream offset variable named in; the buffer
keeps its last context bytes across refills and is zero-padded by context
bytes on the final one. -/
def submitSourceFileLoop (p : JobInfo) (seed : List Nat) (dfuel : Nat) :
    Nat → Nat → Nat → List Nat → Int → ScanState → Option (Int × ScanState)
  | 0, _, _, _, _, _ => none
  | fuel + 1, pos, inOff, buf, got, s =>
    if pos ≥ seed.length then some (got, s)
    else
      let bufsize := p.blockSize * 16
      let startIn := inOff
      let rd : Nat × Nat × List Nat × Nat :=
        if inOff = 0 then
          let g := (seed.drop pos).take bufsize
          (pos + g.length, inOff + g.length, g, g.length)
        else
          let keep := (buf.drop (bufsize - contextOf p)).take (contextOf p)
          let g := (seed.drop pos).take (bufsize - contextOf p)
          (pos + g.length, inOff + (bufsize - contextOf p), keep ++ g, contextOf p + g.length)
      let pos2 := rd.1
      let inOff2 := rd.2.1
      let atEnd := pos2 ≥ seed.length
      let buf2 := if atEnd then rd.2.2.1 ++ List.replicate (contextOf p) 0 else rd.2.2.1
      let len2 := if atEnd then rd.2.2.2 + contextOf p else rd.2.2.2
      match submitSourceData p dfuel buf2 len2 startIn s with
      | none => none
      | some gs => submitSourceFileLoop p seed dfuel fuel pos2 inOff2 buf2 (got + gs.1) gs.2

/-- submitSourceFile: build the rsum hash tables if absent, then scan the
seed stream through the refill loop.  The malloc of the working buffer
cannot fail in the model. -/
def submitSourceFile (p : JobInfo) (dfuel ffuel : Nat) (seed : List Nat)
    (s : ScanState) : Option (Int × ScanState) :=
  let s1 := if ¬s.hashBuilt then buildHash p s else s
  submitSourceFileLoop p seed dfuel ffuel 0 0 [] 0 s1

/-! ## Job driver (getRequiredRanges, tryOpenSeedFile, the () operator) -/

/-- One iteration of the getRequiredRanges subtraction loop over the known
ranges.  The running state is the ret_ranges vector and the live count n;
note the source appends a fresh scratch pair at every iteration and only removes
(0,0) pairs afterwards. -/
def grrStep (p : JobInfo) (s : ScanState) (fromB toB : Int)
    (st : List (Int × Int) × Nat) (i : Nat) : List (Int × Int) × Nat :=
  let off : Int := p.blockIdOffset
  let n := st.2
  let ret := st.1 ++ [if n = 1 then (fromB, toB) else ((0 : Int), (0 : Int))]
  let lo := (s.ranges.getD i dPair).1 + off
  let hi := (s.ranges.getD i dPair).2 + off
  if lo > (ret.getD (n - 1) dPair).2 then (ret, n)
  else if hi < fromB then (ret, n)
  else if n = 1 ∧ lo ≤ fromB then
    (ret.set 0 (hi + 1, (ret.getD 0 dPair).2), n)
  else if hi ≥ (ret.getD (n - 1) dPair).2 - 1 then
    (ret.set (n - 1) ((ret.getD (n - 1) dPair).1, lo), n)
  else
    let ret2 := ret.set n (hi + 1, (ret.getD (n - 1) dPair).2)
    let ret3 := ret2.set (n - 1) ((ret2.getD (n - 1) dPair).1, lo)
    (ret3, n + 1)

/-- getRequiredRanges: subtract the known ranges from the window
[blockIdOffset, blocks + blockIdOffset], drop (0,0) pairs, and annotate
every surviving pair with the stored strong checksums of the block ids
from pair.first to pair.second inclusive.  Returns none (the null vector)
when nothing is left. -/
def getRequiredRanges (p : JobInfo) (s : ScanState) :
    Option (List ((Int × Int) × List (List Nat))) :=
  let off : Int := p.blockIdOffset
  let fromB : Int := off
  let toB : Int := (p.blocks : Int) + off
  let res := (List.range s.ranges.length).foldl (grrStep p s fromB toB)
    ([(fromB, toB), (0, 0)], 1)
  let ret1 := if res.2 = 1 ∧ (res.1.getD 0 dPair).1 ≥ (res.1.getD 0 dPair).2 then [] else res.1
  let ret2 := ret1.filter (fun pr => pr ≠ ((0 : Int), (0 : Int)))
  if ret2.isEmpty then none
  else some (ret2.map (fun pr =>
    (pr, (List.range (pr.2 - pr.1 + 1).toNat).map (fun k =>
      ((s.blockHashes.getD (pr.1 - off + k).toNat dEntry).checksum).take p.strongBytes))))

/-- tryOpenSeedFile: missing file, unreadable permissions, or failing open. -/
def tryOpenSeedFile (seed : Option (List Nat)) (readable openable : Bool) : Option Nat :=
  match seed with
  | none => some eSourceFileNotFound
  | some _ =>
    if ¬readable then some eNoPermissionToRead
    else if ¬openable then some eCannotOpenSourceFile
    else none

/-- The job result (struct Result of the header; per the spec the counters
start at 0 and the range vector at null, so an early error returns
gotBlocks = 0 and requiredRanges = none). -/
structure Result where
  errorCode : Nat
  gotBlocks : Int
  requiredRanges : Option (List ((Int × Int) × List (List Nat)))
deriving DecidableEq, Repr

/-- The () operator of ZsyncCoreJobPrivate: parse the checksum stream,
open the seed, scan it, and build the required-range report.  none only
on scanner fuel exhaustion. -/
def runJob (p : JobInfo) (stream : Option (List Nat)) (streamOpen : Bool)
    (seed : Option (List Nat)) (seedReadable seedOpen : Bool)
    (dfuel ffuel : Nat) : Option (Result × ScanState) :=
  let s := initState p
  match parseTargetFileCheckSumBlocks p stream streamOpen s with
  | Except.error e => some ({ errorCode := e, gotBlocks := 0, requiredRanges := none }, s)
  | Except.ok s1 =>
    match tryOpenSeedFile seed seedReadable seedOpen with
    | some e => some ({ errorCode := e, gotBlocks := 0, requiredRanges := none }, s1)
    | none =>
      match submitSourceFile p dfuel ffuel (seed.getD []) s1 with
      | none => none
      | some gs =>
        some ({ errorCode := 0, gotBlocks := gs.1,
                requiredRanges := getRequiredRanges p gs.2 }, gs.2)

/-! ## Checksum stream construction (for concrete inputs) -/

/-- The blocks of a target byte string, one blockSize slice per block id. -/
def targetBlocks (p : JobInfo) (target : List Nat) : List (List Nat) :=
  (List.range p.blocks).map (fun k => (target.drop (k * p.blockSize)).take p.blockSize)

/-- Modelled from the spec (§6, checksum stream format): one record of the
control-file checksum stream, produced by the control-file writer that is
not part of the sources: the top weakBytes bytes of the big-endian
(a, b) rolling-sum field followed by the first strongBytes bytes of the
block's MD4. -/
def checksumRecord (p : JobInfo) (block : List Nat) : List Nat :=
  let r := calc_rsum_block block
  let weakField := [(r.a >>> 8) % 256, r.a % 256, (r.b >>> 8) % 256, r.b % 256]
  (weakField.drop (4 - p.weakBytes)) ++ (md4 block).take p.strongBytes

/-- Modelled from the spec (§6): the packed checksum stream of a target. -/
def checksumStreamOf (p : JobInfo) (target : List Nat) : List Nat :=
  ((targetBlocks p target).map (checksumRecord p)).flatten


/-! ## Verified-write predicate and concrete scenario inputs -/

/-- The strong-check gate of C2: the MD4 of the bytes logged for a block
id agrees, in its first strongBytes bytes, with the checksum stored for
that id in the state's block hash table. -/
def writeVerified (p : JobInfo) (s : ScanState) (w : Nat × List Nat) : Prop :=
  (md4 w.2).take p.strongBytes = ((s.blockHashes.getD w.1 dEntry).checksum).take p.strongBytes

/-- The stored strong checksum of a block id in a state. -/
def checksumAt (s : ScanState) (id : Nat) : List Nat :=
  (s.blockHashes.getD id dEntry).checksum

/-- Spec scenario parameters: block_size 4, blocks 4, weak 4, strong 16,
seq_matches 1, offset 0. -/
def pScen : JobInfo := ⟨4, 4, 0, 4, 16, 1⟩

/-- Spec scenario target ABCDEFGHIJKLMNOP. -/
def targetScen : List Nat := [65, 66, 67, 68, 69, 70, 71, 72, 73, 74, 75, 76, 77, 78, 79, 80]

/-- Checksum stream of the scenario target. -/
def streamScen : List Nat := checksumStreamOf pScen targetScen

/-- Counterexample job for the identical-seed claim: block_size 2,
blocks 4, weak 4, strong 16, seq_matches 1. -/
def pCx : JobInfo := ⟨2, 4, 0, 4, 16, 1⟩

/-- Counterexample target (= seed) with duplicated blocks: the bytes
aaaabcab, i.e. blocks aa, aa, bc, ab. -/
def targetCx : List Nat := [97, 97, 97, 97, 98, 99, 97, 98]

/-- Checksum stream of the counterexample target. -/
def streamCx : List Nat := checksumStreamOf pCx targetCx

/-- One-block job used for the short-seed counterexample and witnesses. -/
def pTiny : JobInfo := ⟨4, 1, 0, 4, 16, 1⟩

/-- Its target: the byte A followed by three zero bytes. -/
def targetTiny : List Nat := [65, 0, 0, 0]

/-- Checksum stream of the one-block target. -/
def streamTiny : List Nat := checksumStreamOf pTiny targetTiny

/-- The one-block job state after parsing its checksum stream. -/
def sTinyParsed : ScanState :=
  match parseTargetFileCheckSumBlocks pTiny (some streamTiny) true (initState pTiny) with
  | Except.ok s => s
  | Except.error _ => initState pTiny

/-! # Theorems -/

/-! ## Rolling checksum algebra (towards C5) -/

theorem log2Aux_eq : ∀ fuel n, n ≤ fuel → log2Aux fuel n = Nat.log2 n := by
  intro fuel
  induction fuel with
  | zero => intro n h; interval_cases n; rw [Nat.log2]; simp [log2Aux]
  | succ f ih =>
    intro n h
    rw [log2Aux, Nat.log2]
    by_cases h2 : n ≥ 2
    case pos => rw [if_pos h2, if_pos h2, ih (n / 2) (by omega)]
    case neg => rw [if_neg h2, if_neg h2]

theorem log2floor_eq (n : Nat) : log2floor n = Nat.log2 n := log2Aux_eq n n le_rfl

theorem rsumLoop_eq (l : List Nat) : ∀ a b : Nat, a < 65536 → b < 65536 →
    rsumLoop l a b l.length = ⟨(a + l.sum) % 65536, (b + wsum l) % 65536⟩ := by
  induction l with
  | nil =>
    intro a b ha hb
    simp only [rsumLoop, List.sum_nil, wsum, Nat.add_zero]
    rw [Nat.mod_eq_of_lt ha, Nat.mod_eq_of_lt hb]
  | cons c rest ih =>
    intro a b _ _
    have h1 : (c :: rest).length = rest.length + 1 := rfl
    rw [h1]
    show rsumLoop rest ((a + c) % 65536) ((b + (rest.length + 1) * c) % 65536)
      (rest.length + 1 - 1) = _
    rw [Nat.succ_sub_one,
      ih _ _ (Nat.mod_lt _ (by omega)) (Nat.mod_lt _ (by omega))]
    simp only [List.sum_cons, wsum, Rsum.mk.injEq]
    constructor
    case left => omega
    case right =>
      conv_rhs => rw [show b + ((rest.length + 1) * c + wsum rest)
        = b + (rest.length + 1) * c + wsum rest by ring]
      omega

theorem calc_rsum_block_eq (l : List Nat) :
    calc_rsum_block l = ⟨l.sum % 65536, wsum l % 65536⟩ := by
  have := rsumLoop_eq l 0 0 (by omega) (by omega)
  simpa [calc_rsum_block] using this

theorem wsum_append_singleton (l : List Nat) (y : Nat) :
    wsum (l ++ [y]) = wsum l + l.sum + y := by
  induction l with
  | nil => simp [wsum]
  | cons c rest ih =>
    have h1 : (c :: rest) ++ [y] = c :: (rest ++ [y]) := rfl
    rw [h1]
    show (rest ++ [y]).length.succ * c + wsum (rest ++ [y]) = _
    rw [ih]
    simp only [List.length_append, List.length_cons, List.length_nil, wsum, List.sum_cons,
      Nat.succ_eq_add_one]
    ring

theorem update_rsum_slide (c : Nat) (t : List Nat) (y : Nat) (shift : Nat)
    (hc : c < 256) (hy : y < 256) (hL : t.length + 1 = 2 ^ shift) :
    update_rsum (calc_rsum_block (c :: t)) c y shift = calc_rsum_block (t ++ [y]) := by
  rw [calc_rsum_block_eq, calc_rsum_block_eq, update_rsum]
  have hw : wsum (c :: t) = (t.length + 1) * c + wsum t := rfl
  have hs : (c :: t).sum = c + t.sum := rfl
  have hsa : (t ++ [y]).sum = t.sum + y := by simp
  rw [hw, hs, hsa, wsum_append_singleton]
  have hcm : c % 256 = c := Nat.mod_eq_of_lt hc
  have hym : y % 256 = y := Nat.mod_eq_of_lt hy
  rw [hcm, hym]
  have ha : m16 ((((c + t.sum) % 65536 : Nat) : Int) + (y : Nat) - (c : Nat))
      = (t.sum + y) % 65536 := by
    unfold m16; omega
  have hshift : (c <<< shift : Nat) = 2 ^ shift * c := by
    rw [Nat.shiftLeft_eq]; ring
  simp only [Rsum.mk.injEq]
  constructor
  case left => exact ha
  case right =>
    rw [ha, hshift, hL]
    generalize 2 ^ shift * c = u
    unfold m16
    omega

theorem window_decompose (buf : List Nat) (pp L : Nat) (hL : 1 ≤ L)
    (hfit : pp + L < buf.length) :
    (buf.drop pp).take L
      = buf.getD pp 0 :: ((buf.drop (pp + 1)).take (L - 1)) ∧
    (buf.drop (pp + 1)).take L
      = ((buf.drop (pp + 1)).take (L - 1)) ++ [buf.getD (pp + L) 0] := by
  obtain ⟨M, rfl⟩ : ∃ M, L = M + 1 := ⟨L - 1, by omega⟩
  have hp : pp < buf.length := by omega
  have h1 : buf.drop pp = buf[pp] :: buf.drop (pp + 1) := List.drop_eq_getElem_cons hp
  simp only [Nat.add_sub_cancel]
  constructor
  case left =>
    rw [h1, List.take_succ_cons, List.getD_eq_getElem buf 0 hp]
  case right =>
    rw [List.take_succ, List.getElem?_drop]
    have hidx : pp + 1 + M = pp + (M + 1) := by omega
    rw [hidx, (List.getElem?_eq_some_getElem_iff buf (pp + (M + 1)) (by omega)).mpr trivial]
    rw [List.getD_eq_getElem buf 0 (by omega)]
    rfl

/-- C5 (amended): the one-byte slide agrees with the fresh checksum when
block_size is the power of two 2 ^ block_shift; the spec's derivation
block_shift = floor(log2 block_size) makes the shift exact precisely
then. -/
theorem c5_amended_slide_round_trip (buf : List Nat) (pp L shift : Nat)
    (hbytes : ∀ v ∈ buf, v < 256) (hpow : L = 2 ^ shift) (hfit : pp + L < buf.length) :
    update_rsum (calc_rsum_block ((buf.drop pp).take L))
        (buf.getD pp 0) (buf.getD (pp + L) 0) shift
      = calc_rsum_block ((buf.drop (pp + 1)).take L) := by
  have hL1 : 1 ≤ L := by
    rw [hpow]; exact Nat.one_le_two_pow
  obtain ⟨hw1, hw2⟩ := window_decompose buf pp L hL1 hfit
  rw [hw1, hw2]
  apply update_rsum_slide
  case hc =>
    rw [List.getD_eq_getElem buf 0 (by omega)]
    exact hbytes _ (List.getElem_mem _)
  case hy =>
    rw [List.getD_eq_getElem buf 0 (by omega)]
    exact hbytes _ (List.getElem_mem _)
  case hL =>
    have hlen : ((buf.drop (pp + 1)).take (L - 1)).length = L - 1 := by
      simp only [List.length_take, List.length_drop]
      omega
    omega

set_option maxRecDepth 1000000 in
/-- C5 (counterexample): with the non-power-of-two block size 3 the
derived shift is floor(log2 3) = 1 and the slide update does not
reproduce the fresh checksum of the next window, already on the buffer
[1,0,0,0] at position 0. -/
theorem c5_counterexample_non_pow2 :
    (∀ v ∈ ([1, 0, 0, 0] : List Nat), v < 256) ∧
    0 + 3 < ([1, 0, 0, 0] : List Nat).length ∧
    update_rsum (calc_rsum_block ((([1, 0, 0, 0] : List Nat).drop 0).take 3))
        (([1, 0, 0, 0] : List Nat).getD 0 0) (([1, 0, 0, 0] : List Nat).getD (0 + 3) 0)
        (blockShiftOf 3)
      ≠ calc_rsum_block ((([1, 0, 0, 0] : List Nat).drop (0 + 1)).take 3) := by
  decide

/-- C5 (witness): the amended slide theorem applied at the concrete
buffer [1,2,3,4,5], position 1, block size 2 = 2 ^ 1. -/
theorem c5_amended_witness :
    ((∀ v ∈ ([1, 2, 3, 4, 5] : List Nat), v < 256) ∧ 2 = 2 ^ 1 ∧
      1 + 2 < ([1, 2, 3, 4, 5] : List Nat).length) ∧
    update_rsum (calc_rsum_block ((([1, 2, 3, 4, 5] : List Nat).drop 1).take 2))
        (([1, 2, 3, 4, 5] : List Nat).getD 1 0) (([1, 2, 3, 4, 5] : List Nat).getD (1 + 2) 0) 1
      = calc_rsum_block ((([1, 2, 3, 4, 5] : List Nat).drop (1 + 1)).take 2) :=
  ⟨⟨by decide, by decide, by decide⟩,
    c5_amended_slide_round_trip [1, 2, 3, 4, 5] 1 2 1 (by decide) (by decide) (by decide)⟩

/-! ## buildHash table sizing (towards C8) -/

theorem hashExpLoop_eq (blocks : Nat) (hb : blocks ≠ 0) :
    ∀ i, 4 ≤ i → hashExpLoop blocks i = max 4 (min i (Nat.log2 blocks)) := by
  intro i
  induction i with
  | zero => omega
  | succ n ih =>
    intro h4
    have hsh : (2 <<< (n + 1 - 1) : Nat) = 2 ^ (n + 1) := by
      rw [Nat.succ_sub_one, Nat.shiftLeft_eq, pow_succ]
      ring
    have hlog : 2 ^ (n + 1) ≤ blocks ↔ n + 1 ≤ Nat.log2 blocks :=
      (Nat.le_log2 hb).symm
    rw [hashExpLoop]
    by_cases hc : (2 <<< (n + 1 - 1) : Nat) > blocks ∧ n + 1 > 4
    case pos =>
      rw [if_pos hc]
      have h4n : 4 ≤ n := by omega
      rw [ih h4n]
      rw [hsh] at hc
      omega
    case neg =>
      rw [if_neg hc]
      rw [hsh] at hc
      omega

theorem buildHashInsert_sizes (p : JobInfo) (hm bm : Nat) :
    ∀ (n : Nat) (bh : Array HashEntry) (rh : Array (Option Nat)) (bit : Array Nat),
      (buildHashInsert p hm bm n bh rh bit).2.1.size = rh.size ∧
      (buildHashInsert p hm bm n bh rh bit).2.2.size = bit.size := by
  intro n
  induction n with
  | zero => intro bh rh bit; exact ⟨rfl, rfl⟩
  | succ n ih =>
    intro bh rh bit
    rw [buildHashInsert]
    constructor
    case left => rw [(ih _ _ _).1, Array.size_setD]
    case right => rw [(ih _ _ _).2, Array.size_setD]

/-- C8 (amended): buildHash picks the exponent i the decrement loop
produces, namely max 4 (min 16 (floor(log2 blocks))) — equivalently the
smallest i in [4,16] with 2^(i+1) > blocks, or 16 if none — and sizes
hash_mask = (2 << i) - 1 = 2^(i+1) - 1, bithash_mask = (2 << (i+3)) - 1 =
2^(i+4) - 1, allocating hash_mask + 1 chain heads and bithash_mask + 1
byte cells for the bit table (the source callocs bytes, not bits). -/
theorem c8_amended_buildHash_tables (p : JobInfo) (s : ScanState) (hb : 1 ≤ p.blocks) :
    hashExp p.blocks = max 4 (min 16 (Nat.log2 p.blocks)) ∧
    (buildHash p s).hashMask = 2 ^ (hashExp p.blocks + 1) - 1 ∧
    (buildHash p s).bitHashMask = 2 ^ (hashExp p.blocks + 4) - 1 ∧
    (buildHash p s).rsumHash.size = (buildHash p s).hashMask + 1 ∧
    (buildHash p s).bitHash.size = (buildHash p s).bitHashMask + 1 := by
  have he : hashExp p.blocks = max 4 (min 16 (Nat.log2 p.blocks)) :=
    hashExpLoop_eq p.blocks (by omega) 16 (by omega)
  have hm1 : ((2 <<< hashExp p.blocks : Nat)) - 1 = 2 ^ (hashExp p.blocks + 1) - 1 := by
    rw [Nat.shiftLeft_eq, pow_succ]; ring_nf
  have hm2 : ((2 <<< (hashExp p.blocks + 3) : Nat)) - 1 = 2 ^ (hashExp p.blocks + 4) - 1 := by
    rw [Nat.shiftLeft_eq, pow_succ, pow_succ, pow_succ, pow_succ]; ring_nf
  have hsz := buildHashInsert_sizes p ((2 <<< hashExp p.blocks) - 1)
    ((2 <<< (hashExp p.blocks + 3)) - 1) p.blocks s.blockHashes
    (Array.mkArray ((2 <<< hashExp p.blocks) - 1 + 1) none)
    (Array.mkArray ((2 <<< (hashExp p.blocks + 3)) - 1 + 1) 0)
  refine ⟨he, ?_, ?_, ?_, ?_⟩
  case refine_1 => simpa [buildHash] using hm1
  case refine_2 => simpa [buildHash] using hm2
  case refine_3 =>
    show (buildHashInsert _ _ _ _ _ _ _).2.1.size = _
    rw [hsz.1, Array.size_mkArray]
    simp [buildHash]
  case refine_4 =>
    show (buildHashInsert _ _ _ _ _ _ _).2.2.size = _
    rw [hsz.2, Array.size_mkArray]
    simp [buildHash]

set_option maxRecDepth 1000000 in
/-- C8 (counterexample): for blocks = 1 every i in [4,16] satisfies
2^(i+1) >= blocks, so the largest such integer is 16, yet the decrement
loop of buildHash selects 4. -/
theorem c8_counterexample_largest_exponent :
    (∀ i < 17, 4 ≤ i → 2 ^ (i + 1) ≥ 1) ∧ hashExp 1 = 4 ∧ (4 : Nat) ≠ 16 := by
  refine ⟨?_, by decide, by decide⟩
  intro i _ _
  exact Nat.one_le_two_pow

set_option maxRecDepth 1000000 in
/-- C8 (witness): the amended buildHash theorem applied to a concrete
job with 100 blocks (exponent 6 = floor(log2 100)). -/
theorem c8_amended_witness :
    1 ≤ (100 : Nat) ∧
    (hashExp 100 = max 4 (min 16 (Nat.log2 100)) ∧
     (buildHash ⟨4, 100, 0, 4, 16, 1⟩ (initState ⟨4, 100, 0, 4, 16, 1⟩)).hashMask
        = 2 ^ (hashExp 100 + 1) - 1 ∧
     (buildHash ⟨4, 100, 0, 4, 16, 1⟩ (initState ⟨4, 100, 0, 4, 16, 1⟩)).bitHashMask
        = 2 ^ (hashExp 100 + 4) - 1 ∧
     (buildHash ⟨4, 100, 0, 4, 16, 1⟩ (initState ⟨4, 100, 0, 4, 16, 1⟩)).rsumHash.size
        = (buildHash ⟨4, 100, 0, 4, 16, 1⟩ (initState ⟨4, 100, 0, 4, 16, 1⟩)).hashMask + 1 ∧
     (buildHash ⟨4, 100, 0, 4, 16, 1⟩ (initState ⟨4, 100, 0, 4, 16, 1⟩)).bitHash.size
        = (buildHash ⟨4, 100, 0, 4, 16, 1⟩ (initState ⟨4, 100, 0, 4, 16, 1⟩)).bitHashMask + 1) :=
  ⟨by decide, c8_amended_buildHash_tables ⟨4, 100, 0, 4, 16, 1⟩ (initState ⟨4, 100, 0, 4, 16, 1⟩) (by decide)⟩

/-! ## Known-range set correctness (towards C6) -/

theorem getD_mem_ranges (l : List (Int × Int)) (i : Nat) (h : i < l.length) :
    l.getD i dPair ∈ l := by
  rw [List.getD_eq_getElem l dPair h]
  exact List.getElem_mem h

theorem rangesWF_loHi (l : List (Int × Int)) (hwf : RangesWF l) (i : Nat)
    (h : i < l.length) : (l.getD i dPair).1 ≤ (l.getD i dPair).2 :=
  hwf.1 _ (getD_mem_ranges l i h)

theorem rangesWF_pairwise_getD (l : List (Int × Int)) (hwf : RangesWF l) (i j : Nat)
    (hij : i < j) (hj : j < l.length) :
    (l.getD i dPair).2 + 1 < (l.getD j dPair).1 := by
  have hi : i < l.length := by omega
  rw [List.getD_eq_getElem l dPair hi, List.getD_eq_getElem l dPair hj]
  exact (List.pairwise_iff_getElem.mp hwf.2) i j hi hj hij

theorem rbbAux_sound (l : List (Int × Int)) (x : Int) (hwf : RangesWF l) :
    ∀ (fuel : Nat) (mn mx : Int), 0 ≤ mn → mn ≤ mx + 1 → mx < (l.length : Int) →
    (mx + 1 - mn).toNat < fuel →
    (∀ i : Nat, i < l.length →
      ((i : Int) < mn → (l.getD i dPair).2 < x) ∧ (mx < (i : Int) → x < (l.getD i dPair).1)) →
    (rangeBeforeBlockAux l x fuel mn mx = -1 ∧ coveredR l x) ∨
    (¬ coveredR l x ∧ 0 ≤ rangeBeforeBlockAux l x fuel mn mx ∧
      rangeBeforeBlockAux l x fuel mn mx ≤ (l.length : Int) ∧
      (∀ i : Nat, i < l.length →
        ((i : Int) < rangeBeforeBlockAux l x fuel mn mx → (l.getD i dPair).2 < x) ∧
        (rangeBeforeBlockAux l x fuel mn mx ≤ (i : Int) → x < (l.getD i dPair).1))) := by
  intro fuel
  induction fuel with
  | zero => intro mn mx _ _ _ hfuel _; omega
  | succ fuel ih =>
    intro mn mx hmn hmn2 hmx hfuel hknow
    rw [rangeBeforeBlockAux]
    by_cases hle : mn ≤ mx
    case neg =>
      rw [if_neg hle]
      right
      have hnc : ¬ coveredR l x := by
        rintro ⟨p, hp, hp1, hp2⟩
        obtain ⟨i, hi, rfl⟩ := List.mem_iff_getElem.mp hp
        have := hknow i hi
        rw [List.getD_eq_getElem l dPair hi] at this
        rcases lt_or_le (i : Int) mn with hc | hc
        case inl => have := this.1 hc; omega
        case inr => have := this.2 (by omega); omega
      refine ⟨hnc, by omega, by omega, ?_⟩
      intro i hi
      have := hknow i hi
      exact ⟨this.1, fun h => this.2 (by omega)⟩
    case pos =>
      rw [if_pos hle]
      have hr0 : mn ≤ (mx + mn) / 2 ∧ (mx + mn) / 2 ≤ mx := by omega
      have hr0n : ((mx + mn) / 2).toNat < l.length := by omega
      have hr0i : (((mx + mn) / 2).toNat : Int) = (mx + mn) / 2 := by omega
      by_cases hgt : x > (l.getD ((mx + mn) / 2).toNat dPair).2
      case pos =>
        rw [if_pos hgt]
        apply ih ((mx + mn) / 2 + 1) mx (by omega) (by omega) hmx (by omega)
        intro i hi
        refine ⟨fun hlt => ?_, (hknow i hi).2⟩
        rcases lt_or_le (i : Int) mn with hc | hc
        case inl => exact (hknow i hi).1 hc
        case inr =>
          rcases eq_or_lt_of_le (show (i : Int) ≤ (mx + mn) / 2 by omega) with hc2 | hc2
          case inl =>
            have : i = ((mx + mn) / 2).toNat := by omega
            rw [this]; exact hgt
          case inr =>
            have hpw := rangesWF_pairwise_getD l hwf i (((mx + mn) / 2).toNat) (by omega) hr0n
            have hlh := rangesWF_loHi l hwf (((mx + mn) / 2).toNat) hr0n
            omega
      case neg =>
        rw [if_neg hgt]
        by_cases hlt : x < (l.getD ((mx + mn) / 2).toNat dPair).1
        case pos =>
          rw [if_pos hlt]
          apply ih mn ((mx + mn) / 2 - 1) hmn (by omega) (by omega) (by omega)
          intro i hi
          refine ⟨(hknow i hi).1, fun hgt2 => ?_⟩
          rcases eq_or_lt_of_le (show (mx + mn) / 2 ≤ (i : Int) by omega) with hc2 | hc2
          case inl =>
            have : i = ((mx + mn) / 2).toNat := by omega
            rw [this]; exact hlt
          case inr =>
            have hpw := rangesWF_pairwise_getD l hwf (((mx + mn) / 2).toNat) i (by omega) hi
            have hlh := rangesWF_loHi l hwf (((mx + mn) / 2).toNat) hr0n
            omega
        case neg =>
          rw [if_neg hlt]
          left
          exact ⟨rfl, l.getD ((mx + mn) / 2).toNat dPair,
            getD_mem_ranges l _ hr0n, by omega, by omega⟩

theorem rangeBeforeBlock_sound (l : List (Int × Int)) (x : Int) (hwf : RangesWF l) :
    (rangeBeforeBlock l x = -1 ∧ coveredR l x) ∨
    (¬ coveredR l x ∧ 0 ≤ rangeBeforeBlock l x ∧
      rangeBeforeBlock l x ≤ (l.length : Int) ∧
      (∀ i : Nat, i < l.length →
        ((i : Int) < rangeBeforeBlock l x → (l.getD i dPair).2 < x) ∧
        (rangeBeforeBlock l x ≤ (i : Int) → x < (l.getD i dPair).1))) := by
  apply rbbAux_sound l x hwf (l.length + 1) 0 ((l.length : Int) - 1) le_rfl (by omega) (by omega) (by omega)
  intro i hi
  constructor
  case left => omega
  case right => omega

theorem mem_take_imp (l : List (Int × Int)) (k : Nat) (P : Int × Int → Prop)
    (h : ∀ i : Nat, i < l.length → i < k → P (l.getD i dPair)) :
    ∀ p ∈ l.take k, P p := by
  intro p hp
  obtain ⟨i, hi, rfl⟩ := List.mem_iff_getElem.mp hp
  have hlen : i < l.length := by
    simp only [List.length_take] at hi
    omega
  have hik : i < k := by
    simp only [List.length_take] at hi
    omega
  rw [List.getElem_take l, ← List.getD_eq_getElem l dPair hlen]
  exact h i hlen hik

theorem mem_drop_imp (l : List (Int × Int)) (k : Nat) (P : Int × Int → Prop)
    (h : ∀ i : Nat, i < l.length → k ≤ i → P (l.getD i dPair)) :
    ∀ p ∈ l.drop k, P p := by
  intro p hp
  obtain ⟨i, hi, rfl⟩ := List.mem_iff_getElem.mp hp
  have hlen : k + i < l.length := by
    simp only [List.length_drop] at hi
    omega
  rw [List.getElem_drop l, ← List.getD_eq_getElem l dPair hlen]
  exact h (k + i) hlen (by omega)

theorem coveredR_append (l1 l2 : List (Int × Int)) (y : Int) :
    coveredR (l1 ++ l2) y ↔ coveredR l1 y ∨ coveredR l2 y := by
  simp only [coveredR, List.mem_append]
  constructor
  case mp => rintro ⟨p, hp | hp, hy⟩ <;> [exact Or.inl ⟨p, hp, hy⟩; exact Or.inr ⟨p, hp, hy⟩]
  case mpr => rintro (⟨p, hp, hy⟩ | ⟨p, hp, hy⟩) <;> [exact ⟨p, Or.inl hp, hy⟩; exact ⟨p, Or.inr hp, hy⟩]

theorem coveredR_cons (v : Int × Int) (l : List (Int × Int)) (y : Int) :
    coveredR (v :: l) y ↔ (v.1 ≤ y ∧ y ≤ v.2) ∨ coveredR l y := by
  simp only [coveredR, List.mem_cons]
  constructor
  case mp => rintro ⟨p, rfl | hp, hy⟩ <;> [exact Or.inl hy; exact Or.inr ⟨p, hp, hy⟩]
  case mpr => rintro (hy | ⟨p, hp, hy⟩) <;> [exact ⟨v, Or.inl rfl, hy⟩; exact ⟨p, Or.inr hp, hy⟩]

theorem list_decompose_at (l : List (Int × Int)) (k : Nat) (h : k < l.length) :
    l = l.take k ++ l.getD k dPair :: l.drop (k + 1) := by
  conv_lhs => rw [← List.take_append_drop k l]
  rw [List.drop_eq_getElem_cons h, List.getD_eq_getElem l dPair h]

theorem cross_take_drop (l : List (Int × Int)) (hwf : RangesWF l) (a b : Nat)
    (hab : a ≤ b) : ∀ p ∈ l.take a, ∀ q ∈ l.drop b, p.2 + 1 < q.1 := by
  intro p hp q hq
  obtain ⟨i, hi, rfl⟩ := List.mem_iff_getElem.mp hp
  obtain ⟨j, hj, rfl⟩ := List.mem_iff_getElem.mp hq
  have hil : i < l.length := by
    simp only [List.length_take] at hi
    omega
  have hjl : b + j < l.length := by
    simp only [List.length_drop] at hj
    omega
  have hia : i < a := by
    simp only [List.length_take] at hi
    omega
  rw [List.getElem_take l, List.getElem_drop l,
    ← List.getD_eq_getElem l dPair hil, ← List.getD_eq_getElem l dPair hjl]
  exact rangesWF_pairwise_getD l hwf i (b + j) (by omega) hjl

theorem wf_splice (l : List (Int × Int)) (hwf : RangesWF l) (a b : Nat) (v : Int × Int)
    (hab : a ≤ b) (hv : v.1 ≤ v.2)
    (hT : ∀ i : Nat, i < l.length → i < a → (l.getD i dPair).2 + 1 < v.1)
    (hD : ∀ i : Nat, i < l.length → b ≤ i → v.2 + 1 < (l.getD i dPair).1) :
    RangesWF (l.take a ++ v :: l.drop b) := by
  constructor
  case left =>
    intro p hp
    rcases List.mem_append.mp hp with hp1 | hp2
    case inl => exact hwf.1 _ (List.mem_of_mem_take hp1)
    case inr =>
      rcases List.mem_cons.mp hp2 with rfl | hp3
      case inl => exact hv
      case inr => exact hwf.1 _ (List.mem_of_mem_drop hp3)
  case right =>
    rw [List.pairwise_append]
    refine ⟨hwf.2.sublist (List.take_sublist a l), ?_, ?_⟩
    case refine_1 =>
      rw [List.pairwise_cons]
      exact ⟨mem_drop_imp l b _ hD, hwf.2.sublist (List.drop_sublist b l)⟩
    case refine_2 =>
      intro p hp q hq
      rcases List.mem_cons.mp hq with rfl | hq2
      case inl => exact mem_take_imp l a (fun r => r.2 + 1 < q.1) hT p hp
      case inr => exact cross_take_drop l hwf a b hab p hp q hq2

theorem coveredR_nil (y : Int) : ¬ coveredR [] y := by
  rintro ⟨p, hp, _⟩
  exact (List.not_mem_nil p) hp

theorem coveredR_splice_iff (l : List (Int × Int)) (a b : Nat) (v : Int × Int) (y : Int) :
    coveredR (l.take a ++ v :: l.drop b) y ↔
      coveredR (l.take a) y ∨ (v.1 ≤ y ∧ y ≤ v.2) ∨ coveredR (l.drop b) y := by
  rw [coveredR_append, coveredR_cons]

theorem coveredR_take_drop (l : List (Int × Int)) (k : Nat) (y : Int) :
    coveredR l y ↔ coveredR (l.take k) y ∨ coveredR (l.drop k) y := by
  conv_lhs => rw [← List.take_append_drop k l]
  rw [coveredR_append]

theorem coveredR_drop_at (l : List (Int × Int)) (k : Nat) (y : Int) (h : k < l.length) :
    coveredR (l.drop k) y ↔
      ((l.getD k dPair).1 ≤ y ∧ y ≤ (l.getD k dPair).2) ∨ coveredR (l.drop (k + 1)) y := by
  rw [List.drop_eq_getElem_cons h, coveredR_cons, List.getD_eq_getElem l dPair h]

theorem coveredR_take_at (l : List (Int × Int)) (k : Nat) (y : Int) (h1 : 1 ≤ k)
    (h2 : k ≤ l.length) :
    coveredR (l.take k) y ↔
      coveredR (l.take (k - 1)) y ∨
        ((l.getD (k - 1) dPair).1 ≤ y ∧ y ≤ (l.getD (k - 1) dPair).2) := by
  obtain ⟨m, rfl⟩ : ∃ m, k = m + 1 := ⟨k - 1, by omega⟩
  have hm : m < l.length := by omega
  rw [List.take_succ, (List.getElem?_eq_some_getElem_iff l m hm).mpr trivial]
  simp only [Option.toList_some, Nat.add_sub_cancel]
  rw [coveredR_append, coveredR_cons, List.getD_eq_getElem l dPair hm]
  constructor
  case mp =>
    rintro (h | h | h)
    case inl => exact Or.inl h
    case inr.inl => exact Or.inr h
    case inr.inr => exact absurd h (coveredR_nil y)
  case mpr =>
    rintro (h | h)
    case inl => exact Or.inl h
    case inr => exact Or.inr (Or.inl h)

/-- C6: addToRanges preserves the known-range invariant (sorted,
disjoint, non-adjacent, nonempty inclusive intervals), its result covers
exactly the old union plus the inserted block id, and an already covered
id leaves the state unchanged. -/
theorem c6_addToRanges_invariant (l : List (Int × Int)) (x : Int) (hwf : RangesWF l) :
    RangesWF (addToRanges l x) ∧
    (∀ y : Int, coveredR (addToRanges l x) y ↔ (coveredR l y ∨ y = x)) ∧
    (coveredR l x → addToRanges l x = l) := by
  rcases rangeBeforeBlock_sound l x hwf with ⟨hm1, hcov⟩ | ⟨hnc, h0, hnle, hsep⟩
  case inl =>
    have heq : addToRanges l x = l := by
      simp [addToRanges, hm1]
    rw [heq]
    refine ⟨hwf, ?_, fun _ => rfl⟩
    intro y
    constructor
    case mp => exact Or.inl
    case mpr =>
      rintro (h | rfl)
      case inl => exact h
      case inr => exact hcov
  case inr =>
    have hne : rangeBeforeBlock l x ≠ -1 := by omega
    have hri : ((rangeBeforeBlock l x).toNat : Int) = rangeBeforeBlock l x := by omega
    set rn := (rangeBeforeBlock l x).toNat with hrndef
    have hrn_le : rn ≤ l.length := by omega
    have F1 : ∀ i : Nat, i < l.length → i < rn → (l.getD i dPair).2 < x := by
      intro i hi h
      exact (hsep i hi).1 (by omega)
    have F2 : ∀ i : Nat, i < l.length → rn ≤ i → x < (l.getD i dPair).1 := by
      intro i hi h
      exact (hsep i hi).2 (by omega)
    by_cases hb1 : rn > 0 ∧ rn < l.length ∧ (l.getD (rn - 1) dPair).2 = x - 1 ∧
        (l.getD rn dPair).1 = x + 1
    case pos =>
      have heq : addToRanges l x = l.take (rn - 1) ++
          ((l.getD (rn - 1) dPair).1, (l.getD rn dPair).2) :: l.drop (rn + 1) := by
        simp only [addToRanges]
        rw [if_neg hne, if_pos hb1]
        simp
      obtain ⟨hg0, hgn, hhi, hlo⟩ := hb1
      have hrn1 : rn - 1 < l.length := by omega
      have hlh1 := rangesWF_loHi l hwf (rn - 1) hrn1
      have hlh2 := rangesWF_loHi l hwf rn hgn
      rw [heq]
      refine ⟨?_, ?_, fun hcv => absurd hcv hnc⟩
      case refine_1 =>
        apply wf_splice l hwf (rn - 1) (rn + 1) _ (by omega) (by dsimp only; omega)
        case hT =>
          intro i hi hilt
          have := rangesWF_pairwise_getD l hwf i (rn - 1) (by omega) hrn1
          dsimp only
          omega
        case hD =>
          intro i hi hile
          have := rangesWF_pairwise_getD l hwf rn i (by omega) hi
          dsimp only
          omega
      case refine_2 =>
        intro y
        rw [coveredR_splice_iff,
          coveredR_take_drop l (rn - 1) y, coveredR_drop_at l (rn - 1) y hrn1]
        have hstep : rn - 1 + 1 = rn := by omega
        rw [hstep, coveredR_drop_at l rn y hgn]
        dsimp only
        constructor
        case mp =>
          rintro (h | h | h)
          case inl => exact Or.inl (Or.inl h)
          case inr.inr => exact Or.inl (Or.inr (Or.inr (Or.inr h)))
          case inr.inl =>
            rcases lt_trichotomy y x with hy | rfl | hy
            case inl => exact Or.inl (Or.inr (Or.inl (by omega)))
            case inr.inl => exact Or.inr rfl
            case inr.inr => exact Or.inl (Or.inr (Or.inr (Or.inl (by omega))))
        case mpr =>
          rintro ((h | h | h | h) | rfl)
          case inl.inl => exact Or.inl h
          case inl.inr.inl => exact Or.inr (Or.inl (by omega))
          case inl.inr.inr.inl => exact Or.inr (Or.inl (by omega))
          case inl.inr.inr.inr => exact Or.inr (Or.inr h)
          case inr => exact Or.inr (Or.inl (by omega))
    case neg =>
      by_cases hb2 : rn > 0 ∧ l.length ≠ 0 ∧ (l.getD (rn - 1) dPair).2 = x - 1
      case pos =>
        have hrn1 : rn - 1 < l.length := by omega
        have heq : addToRanges l x
            = l.take (rn - 1) ++ ((l.getD (rn - 1) dPair).1, x) :: l.drop rn := by
          simp only [addToRanges]
          rw [if_neg hne, if_pos hb2, if_neg hb1,
            List.set_eq_take_cons_drop _ hrn1]
          have hstep : rn - 1 + 1 = rn := by omega
          rw [hstep]
        obtain ⟨hg0, hn0, hhi⟩ := hb2
        have hlh1 := rangesWF_loHi l hwf (rn - 1) hrn1
        rw [heq]
        refine ⟨?_, ?_, fun hcv => absurd hcv hnc⟩
        case refine_1 =>
          apply wf_splice l hwf (rn - 1) rn _ (by omega) (by dsimp only; omega)
          case hT =>
            intro i hi hilt
            have := rangesWF_pairwise_getD l hwf i (rn - 1) (by omega) hrn1
            dsimp only
            omega
          case hD =>
            intro i hi hile
            have hxlt := F2 i hi hile
            dsimp only
            rcases Nat.eq_or_lt_of_le hile with rfl | hlt2
            case inl =>
              have hrnn : rn < l.length := hi
              have : ¬ (l.getD rn dPair).1 = x + 1 := by
                intro hcontra
                exact hb1 ⟨hg0, hrnn, hhi, hcontra⟩
              omega
            case inr =>
              have hrnn : rn < l.length := by omega
              have := rangesWF_pairwise_getD l hwf rn i hlt2 hi
              have := rangesWF_loHi l hwf rn hrnn
              have := F2 rn hrnn le_rfl
              omega
        case refine_2 =>
          intro y
          rw [coveredR_splice_iff,
            coveredR_take_drop l (rn - 1) y, coveredR_drop_at l (rn - 1) y hrn1]
          have hstep : rn - 1 + 1 = rn := by omega
          rw [hstep]
          dsimp only
          constructor
          case mp =>
            rintro (h | h | h)
            case inl => exact Or.inl (Or.inl h)
            case inr.inr => exact Or.inl (Or.inr (Or.inr h))
            case inr.inl =>
              rcases eq_or_lt_of_le h.2 with rfl | hy
              case inl => exact Or.inr rfl
              case inr => exact Or.inl (Or.inr (Or.inl (by omega)))
          case mpr =>
            rintro ((h | h | h) | rfl)
            case inl.inl => exact Or.inl h
            case inl.inr.inl => exact Or.inr (Or.inl (by omega))
            case inl.inr.inr => exact Or.inr (Or.inr h)
            case inr => exact Or.inr (Or.inl (by omega))
      case neg =>
        by_cases hb3 : rn < l.length ∧ (l.getD rn dPair).1 = x + 1
        case pos =>
          have heq : addToRanges l x
              = l.take rn ++ (x, (l.getD rn dPair).2) :: l.drop (rn + 1) := by
            simp only [addToRanges]
            rw [if_neg hne, if_pos hb3, if_neg hb1, if_neg hb2,
              List.set_eq_take_cons_drop _ hb3.1]
          obtain ⟨hgn, hlo⟩ := hb3
          have hlh2 := rangesWF_loHi l hwf rn hgn
          rw [heq]
          refine ⟨?_, ?_, fun hcv => absurd hcv hnc⟩
          case refine_1 =>
            apply wf_splice l hwf rn (rn + 1) _ (by omega) (by dsimp only; omega)
            case hT =>
              intro i hi hilt
              dsimp only
              rcases Nat.eq_or_lt_of_le (show i + 1 ≤ rn by omega) with heq1 | hlt2
              case inl =>
                have hne2 : ¬ (l.getD (rn - 1) dPair).2 = x - 1 := by
                  intro hcontra
                  exact hb2 ⟨by omega, by omega, hcontra⟩
                have hx := F1 i hi hilt
                have hieq : rn - 1 = i := by omega
                rw [hieq] at hne2
                omega
              case inr =>
                have hrn1 : rn - 1 < l.length := by omega
                have hp1 := rangesWF_pairwise_getD l hwf i (rn - 1) (by omega) hrn1
                have hp2 := F1 (rn - 1) hrn1 (by omega)
                have hp3 := rangesWF_loHi l hwf (rn - 1) hrn1
                omega
            case hD =>
              intro i hi hile
              have := rangesWF_pairwise_getD l hwf rn i (by omega) hi
              dsimp only
              omega
          case refine_2 =>
            intro y
            rw [coveredR_splice_iff, coveredR_take_drop l rn y,
              coveredR_drop_at l rn y hgn]
            dsimp only
            constructor
            case mp =>
              rintro (h | h | h)
              case inl => exact Or.inl (Or.inl h)
              case inr.inr => exact Or.inl (Or.inr (Or.inr h))
              case inr.inl =>
                rcases eq_or_lt_of_le h.1 with rfl | hy
                case inl => exact Or.inr rfl
                case inr => exact Or.inl (Or.inr (Or.inl (by omega)))
            case mpr =>
              rintro ((h | h | h) | rfl)
              case inl.inl => exact Or.inl h
              case inl.inr.inl => exact Or.inr (Or.inl (by omega))
              case inl.inr.inr => exact Or.inr (Or.inr h)
              case inr => exact Or.inr (Or.inl (by omega))
        case neg =>
          have heq : addToRanges l x = l.take rn ++ (x, x) :: l.drop rn := by
            simp only [addToRanges]
            rw [if_neg hne, if_neg hb1, if_neg hb2, if_neg hb3]
            simp
          rw [heq]
          refine ⟨?_, ?_, fun hcv => absurd hcv hnc⟩
          case refine_1 =>
            apply wf_splice l hwf rn rn _ le_rfl (by dsimp only; omega)
            case hT =>
              intro i hi hilt
              dsimp only
              rcases Nat.eq_or_lt_of_le (show i + 1 ≤ rn by omega) with heq1 | hlt2
              case inl =>
                have hne2 : ¬ (l.getD (rn - 1) dPair).2 = x - 1 := by
                  intro hcontra
                  exact hb2 ⟨by omega, by omega, hcontra⟩
                have hx := F1 i hi hilt
                have hieq : rn - 1 = i := by omega
                rw [hieq] at hne2
                omega
              case inr =>
                have hrn1 : rn - 1 < l.length := by omega
                have hp1 := rangesWF_pairwise_getD l hwf i (rn - 1) (by omega) hrn1
                have hp2 := F1 (rn - 1) hrn1 (by omega)
                have hp3 := rangesWF_loHi l hwf (rn - 1) hrn1
                omega
            case hD =>
              intro i hi hile
              dsimp only
              rcases Nat.eq_or_lt_of_le hile with rfl | hlt2
              case inl =>
                have : ¬ (l.getD rn dPair).1 = x + 1 := by
                  intro hcontra
                  exact hb3 ⟨hi, hcontra⟩
                have := F2 rn hi le_rfl
                omega
              case inr =>
                have hrnn : rn < l.length := by omega
                have := rangesWF_pairwise_getD l hwf rn i hlt2 hi
                have := rangesWF_loHi l hwf rn hrnn
                have := F2 rn hrnn le_rfl
                omega
          case refine_2 =>
            intro y
            rw [coveredR_splice_iff, coveredR_take_drop l rn y]
            dsimp only
            constructor
            case mp =>
              rintro (h | h | h)
              case inl => exact Or.inl (Or.inl h)
              case inr.inr => exact Or.inl (Or.inr h)
              case inr.inl => exact Or.inr (by omega)
            case mpr =>
              rintro ((h | h) | rfl)
              case inl.inl => exact Or.inl h
              case inl.inr => exact Or.inr (Or.inr h)
              case inr => exact Or.inr (Or.inl (by omega))

/-- C6 (witness): the invariant theorem applied to the concrete state
[(0,0),(4,5)] and the insertion of block 2. -/
theorem c6_addToRanges_witness :
    RangesWF [((0 : Int), (0 : Int)), (4, 5)] ∧
    (RangesWF (addToRanges [((0 : Int), (0 : Int)), (4, 5)] 2) ∧
     (∀ y : Int, coveredR (addToRanges [((0 : Int), (0 : Int)), (4, 5)] 2) y ↔
        (coveredR [((0 : Int), (0 : Int)), (4, 5)] y ∨ y = 2)) ∧
     (coveredR [((0 : Int), (0 : Int)), (4, 5)] 2 →
        addToRanges [((0 : Int), (0 : Int)), (4, 5)] 2 = [((0 : Int), (0 : Int)), (4, 5)])) :=
  have hwf : RangesWF [((0 : Int), (0 : Int)), (4, 5)] := by
    constructor
    case left =>
      intro p hp
      rcases List.mem_cons.mp hp with rfl | hp2
      case inl => omega
      case inr =>
        rcases List.mem_cons.mp hp2 with rfl | hp3
        case inl => omega
        case inr => exact absurd hp3 (List.not_mem_nil p)
    case right =>
      rw [List.pairwise_cons]
      refine ⟨?_, by simp⟩
      intro q hq
      rcases List.mem_cons.mp hq with rfl | hq2
      case inl => omega
      case inr => exact absurd hq2 (List.not_mem_nil q)
  ⟨hwf, c6_addToRanges_invariant [((0 : Int), (0 : Int)), (4, 5)] 2 hwf⟩

/-! ## Target writer frame (towards C7) -/

theorem applyWrites_append_single (ws : List (Int × List Nat)) (o : Int)
    (bytes : List Nat) (q : Int) :
    applyWrites (ws ++ [(o, bytes)]) q =
      if o ≤ q ∧ q < o + bytes.length then some (bytes.getD (q - o).toNat 0)
      else applyWrites ws q := by
  induction ws with
  | nil =>
    show (match applyWrites [] q with
      | some v => some v
      | none => if o ≤ q ∧ q < o + bytes.length then some (bytes.getD (q - o).toNat 0)
        else none) = _
    rfl
  | cons hd tl ih =>
    show (match applyWrites (tl ++ [(o, bytes)]) q with
      | some v => some v
      | none => if hd.1 ≤ q ∧ q < hd.1 + hd.2.length then some (hd.2.getD (q - hd.1).toNat 0)
        else none) = _
    rw [ih]
    by_cases hc : o ≤ q ∧ q < o + bytes.length
    case pos => rw [if_pos hc, if_pos hc]
    case neg =>
      rw [if_neg hc, if_neg hc]
      rfl

theorem writeBlocks_foldl_file (p : JobInfo) (bfrom : Nat) :
    ∀ (ks : List Nat) (st : ScanState),
      (ks.foldl (fun st k =>
        let st2 := removeBlockFromHash p st (bfrom + k)
        { st2 with ranges := addToRanges st2.ranges ((bfrom + k : Nat) : Int) }) st).file
      = st.file := by
  intro ks
  induction ks with
  | nil => intro st; rfl
  | cons k tl ih =>
    intro st
    rw [List.foldl_cons, ih]
    rfl

/-- C7 (amended): writeBlocks writes exactly one positioned blob of
(bto - bfrom + 1) << block_shift bytes (truncated to the window bytes
available, and equal to (bto - bfrom + 1) * block_size exactly when
block_size = 2 ^ block_shift) at byte offset
(bfrom + block_id_offset) << block_shift, restores the file cursor, and
leaves the content at every offset outside the written interval
unchanged. -/
theorem c7_amended_writeBlocks_frame (p : JobInfo) (buf : List Nat) (x : Nat)
    (bfrom : Nat) (bto : Int) (s : ScanState) (h : (bfrom : Int) ≤ bto) :
    (writeBlocks p buf x bfrom bto s).file.pos = s.file.pos ∧
    (writeBlocks p buf x bfrom bto s).file.writes = s.file.writes ++
      [(((bfrom : Int) + (p.blockIdOffset : Int)) * (2 ^ pShift p),
        (buf.drop x).take (((bto - (bfrom : Int) + 1) * (2 ^ pShift p)).toNat))] ∧
    (p.blockSize = 2 ^ pShift p →
      (bto - (bfrom : Int) + 1) * (2 ^ pShift p) = (bto - (bfrom : Int) + 1) * (p.blockSize : Int)) ∧
    (∀ q : Int,
      (q < ((bfrom : Int) + (p.blockIdOffset : Int)) * (2 ^ pShift p) ∨
        ((bfrom : Int) + (p.blockIdOffset : Int)) * (2 ^ pShift p) +
          ((buf.drop x).take (((bto - (bfrom : Int) + 1) * (2 ^ pShift p)).toNat)).length ≤ q) →
      applyWrites ((writeBlocks p buf x bfrom bto s).file.writes) q
        = applyWrites s.file.writes q) := by
  have hfile : (writeBlocks p buf x bfrom bto s).file =
      writeBlocksFileOp s.file (((bfrom : Int) + (p.blockIdOffset : Int)) * (2 ^ pShift p))
        ((buf.drop x).take (((bto - (bfrom : Int) + 1) * (2 ^ pShift p)).toNat)) := by
    simp only [writeBlocks]
    rw [writeBlocks_foldl_file]
  refine ⟨?_, ?_, ?_, ?_⟩
  case refine_1 => rw [hfile]; rfl
  case refine_2 => rw [hfile]; rfl
  case refine_3 =>
    intro hbs
    rw [hbs]
    push_cast
    ring
  case refine_4 =>
    intro q hq
    rw [hfile]
    simp only [writeBlocksFileOp, fseek, fwrite]
    rw [applyWrites_append_single]
    rw [if_neg (by omega)]

/-- C7 (counterexample): with the non-power-of-two block size 6 the
derived shift is 2 and writeBlocks writes (bto - bfrom + 1) << 2 = 4
bytes for one block, not (bto - bfrom + 1) * block_size = 6. -/
theorem c7_counterexample_len_non_pow2 :
    ((0 : Int) ≤ (0 : Int)) ∧
    (writeBlocks ⟨6, 1, 0, 4, 16, 1⟩ [10, 11, 12, 13, 14, 15] 0 0 0
        (initState ⟨6, 1, 0, 4, 16, 1⟩)).file.writes = [(0, [10, 11, 12, 13])] ∧
    ([10, 11, 12, 13] : List Nat).length ≠ 1 * 6 := by
  refine ⟨by decide, by decide, by decide⟩

/-- C7 (witness): the amended frame theorem applied to a concrete
one-block write. -/
theorem c7_amended_witness :
    ((0 : Nat) : Int) ≤ (0 : Int) ∧
    ((writeBlocks ⟨4, 1, 0, 4, 16, 1⟩ [1, 2, 3, 4] 0 0 0 (initState ⟨4, 1, 0, 4, 16, 1⟩)).file.pos
       = (initState ⟨4, 1, 0, 4, 16, 1⟩).file.pos ∧
     (writeBlocks ⟨4, 1, 0, 4, 16, 1⟩ [1, 2, 3, 4] 0 0 0 (initState ⟨4, 1, 0, 4, 16, 1⟩)).file.writes
       = (initState ⟨4, 1, 0, 4, 16, 1⟩).file.writes ++
        [((((0 : Nat) : Int) + ((0 : Nat) : Int)) * (2 ^ pShift ⟨4, 1, 0, 4, 16, 1⟩),
          (([1, 2, 3, 4] : List Nat).drop 0).take
            ((((0 : Int) - ((0 : Nat) : Int) + 1) * (2 ^ pShift ⟨4, 1, 0, 4, 16, 1⟩)).toNat))] ∧
     ((⟨4, 1, 0, 4, 16, 1⟩ : JobInfo).blockSize = 2 ^ pShift ⟨4, 1, 0, 4, 16, 1⟩ →
       ((0 : Int) - ((0 : Nat) : Int) + 1) * (2 ^ pShift ⟨4, 1, 0, 4, 16, 1⟩)
         = ((0 : Int) - ((0 : Nat) : Int) + 1) * (((⟨4, 1, 0, 4, 16, 1⟩ : JobInfo).blockSize : Nat) : Int)) ∧
     (∀ q : Int,
       (q < (((0 : Nat) : Int) + ((0 : Nat) : Int)) * (2 ^ pShift ⟨4, 1, 0, 4, 16, 1⟩) ∨
         (((0 : Nat) : Int) + ((0 : Nat) : Int)) * (2 ^ pShift ⟨4, 1, 0, 4, 16, 1⟩) +
           ((([1, 2, 3, 4] : List Nat).drop 0).take
             ((((0 : Int) - ((0 : Nat) : Int) + 1) * (2 ^ pShift ⟨4, 1, 0, 4, 16, 1⟩)).toNat)).length ≤ q) →
       applyWrites ((writeBlocks ⟨4, 1, 0, 4, 16, 1⟩ [1, 2, 3, 4] 0 0 0
           (initState ⟨4, 1, 0, 4, 16, 1⟩)).file.writes) q
         = applyWrites (initState ⟨4, 1, 0, 4, 16, 1⟩).file.writes q)) :=
  ⟨by decide,
    c7_amended_writeBlocks_frame ⟨4, 1, 0, 4, 16, 1⟩ [1, 2, 3, 4] 0 0 0
      (initState ⟨4, 1, 0, 4, 16, 1⟩) (by decide)⟩

/-! ## Checksum stream error classification (towards C4) -/

theorem parseLoop_not_invalid (p : JobInfo) (str : List Nat) :
    ∀ (count id pos : Nat) (bh : Array HashEntry) (e : Nat),
      parseLoop p str count id pos bh = Except.error e → e = eQBufferReadFailed := by
  intro count
  induction count with
  | zero =>
    intro id pos bh e h
    exact absurd h (by simp [parseLoop])
  | succ count ih =>
    intro id pos bh e h
    rw [parseLoop] at h
    by_cases h1 : readCount str.length pos p.weakBytes < 1
    case pos =>
      rw [if_pos h1] at h
      cases h
      rfl
    case neg =>
      rw [if_neg h1] at h
      by_cases h2 : readCount str.length (pos + readCount str.length pos p.weakBytes)
          p.strongBytes < 1
      case pos =>
        rw [if_pos h2] at h
        cases h
        rfl
      case neg =>
        rw [if_neg h2] at h
        exact ih _ _ _ _ h

/-- C4 (amended): parsing fails with InvalidChecksumStream exactly when
the stream is missing (null) or shorter than one weak_bytes +
strong_bytes record; a stream that cannot be opened fails with
ChecksumStreamOpenFailed, and a stream of at least one record that runs
dry during the per-block loop fails with ChecksumStreamReadFailed, both
distinct from InvalidChecksumStream.  On every parse failure the job
returns that error with got_blocks = 0, required_ranges = none, and no
bytes written to the target file. -/
theorem c4_amended_parse_error_classification (p : JobInfo) (stream : Option (List Nat))
    (canOpen : Bool) (s : ScanState) :
    (parseTargetFileCheckSumBlocks p stream canOpen s = Except.error eInvalidChecksumBlocks ↔
      (stream = none ∨ ∃ str, stream = some str ∧ str.length < p.weakBytes + p.strongBytes)) ∧
    (∀ (e : Nat) (seed : Option (List Nat)) (sr so : Bool) (dfuel ffuel : Nat),
      parseTargetFileCheckSumBlocks p stream canOpen (initState p) = Except.error e →
      runJob p stream canOpen seed sr so dfuel ffuel =
        some ({ errorCode := e, gotBlocks := 0, requiredRanges := none }, initState p) ∧
      (initState p).file.writes = []) := by
  constructor
  case left =>
    match stream with
    | none =>
      constructor
      case mp => intro _; exact Or.inl rfl
      case mpr => intro _; rfl
    | some str =>
      simp only [parseTargetFileCheckSumBlocks]
      by_cases hlen : str.length < p.weakBytes + p.strongBytes
      case pos =>
        rw [if_pos hlen]
        constructor
        case mp => intro _; exact Or.inr ⟨str, rfl, hlen⟩
        case mpr => intro _; rfl
      case neg =>
        rw [if_neg hlen]
        constructor
        case mp =>
          intro h
          by_cases hop : canOpen
          case pos =>
            rw [if_neg (by simp [hop])] at h
            cases hpl : parseLoop p str p.blocks 0 0 s.blockHashes with
            | error e2 =>
              rw [hpl] at h
              dsimp only at h
              rw [parseLoop_not_invalid p str p.blocks 0 0 s.blockHashes e2 hpl] at h
              exact absurd (Except.error.inj h) (by decide)
            | ok bh =>
              rw [hpl] at h
              exact absurd h (by simp)
          case neg =>
            rw [if_pos (by simp [hop])] at h
            exact absurd (Except.error.inj h) (by decide)
        case mpr =>
          rintro (h | ⟨str2, heq, hlt⟩)
          case inl => exact absurd h (by simp)
          case inr =>
            cases heq
            omega
  case right =>
    intro e seed sr so dfuel ffuel hparse
    refine ⟨?_, rfl⟩
    rw [runJob, hparse]

/-- C4 (counterexample): a stream of 20 bytes with blocks = 2, weak_bytes
= 4, strong_bytes = 16 is shorter than the required 40 bytes, yet parsing
fails with ChecksumStreamReadFailed, not InvalidChecksumStream. -/
theorem c4_counterexample_short_stream_error_kind :
    (List.replicate 20 7).length <
      2 * ((⟨4, 2, 0, 4, 16, 1⟩ : JobInfo).weakBytes + (⟨4, 2, 0, 4, 16, 1⟩ : JobInfo).strongBytes) ∧
    parseTargetFileCheckSumBlocks ⟨4, 2, 0, 4, 16, 1⟩ (some (List.replicate 20 7)) true
        (initState ⟨4, 2, 0, 4, 16, 1⟩) = Except.error eQBufferReadFailed ∧
    eQBufferReadFailed ≠ eInvalidChecksumBlocks := by
  refine ⟨by decide, by rfl, by decide⟩

/-- C4 (witness): the amended classification applied to the concrete
20-byte stream: the parse error is ChecksumStreamReadFailed and the job
returns it with got_blocks 0, required_ranges none and no writes. -/
theorem c4_amended_witness :
    (parseTargetFileCheckSumBlocks ⟨4, 2, 0, 4, 16, 1⟩ (some (List.replicate 20 7)) true
        (initState ⟨4, 2, 0, 4, 16, 1⟩) = Except.error eQBufferReadFailed) ∧
    (runJob ⟨4, 2, 0, 4, 16, 1⟩ (some (List.replicate 20 7)) true (some []) true true 10 10 =
        some ({ errorCode := eQBufferReadFailed, gotBlocks := 0, requiredRanges := none },
          initState ⟨4, 2, 0, 4, 16, 1⟩) ∧
      (initState ⟨4, 2, 0, 4, 16, 1⟩).file.writes = []) :=
  ⟨by rfl,
    (c4_amended_parse_error_classification ⟨4, 2, 0, 4, 16, 1⟩ (some (List.replicate 20 7)) true
      (initState ⟨4, 2, 0, 4, 16, 1⟩)).2 eQBufferReadFailed (some []) true true 10 10 (by rfl)⟩

/-! ## Strong-check gating of every write (towards C2) -/

theorem getD_setD_entry (a : Array HashEntry) (j : Nat) (v : HashEntry) (i : Nat) :
    (a.setD j v).getD i dEntry = if j = i ∧ j < a.size then v else a.getD i dEntry := by
  by_cases hj : j < a.size
  case pos =>
    simp only [Array.setD, dif_pos hj]
    by_cases hij : j = i
    case pos =>
      subst hij
      rw [if_pos ⟨rfl, hj⟩, Array.getD_eq_get?, Array.get?_set_eq]
      rfl
    case neg =>
      rw [if_neg (by tauto), Array.getD_eq_get?, Array.getD_eq_get?, Array.get?_set_ne]
      simp only [Fin.val_mk]
      omega
  case neg =>
    rw [if_neg (by tauto)]
    simp [Array.setD, hj]

theorem removeChainAux_checksum (tgt : Nat) (tnext : Option Nat) :
    ∀ (fuel : Nat) (bh : Array HashEntry) (head : Option Nat) (i : Nat),
      ((removeChainAux tgt tnext fuel bh head).2.1.getD i dEntry).checksum
        = ((bh.getD i dEntry)).checksum := by
  intro fuel
  induction fuel with
  | zero => intro bh head i; rfl
  | succ fuel ih =>
    intro bh head i
    match head with
    | none => rfl
    | some j =>
      rw [removeChainAux]
      by_cases hjt : j = tgt
      case pos => rw [if_pos hjt]
      case neg =>
        rw [if_neg hjt]
        dsimp only
        rw [getD_setD_entry]
        by_cases hcond : j = i ∧ j < (removeChainAux tgt tnext fuel bh (bh.getD j dEntry).next).2.1.size
        case pos =>
          rw [if_pos hcond]
          dsimp only
          rw [ih]
          rw [hcond.1]
        case neg =>
          rw [if_neg hcond]
          exact ih bh _ i

theorem removeBlockFromHash_checksum (p : JobInfo) (s : ScanState) (id i : Nat) :
    checksumAt (removeBlockFromHash p s id) i = checksumAt s i := by
  unfold checksumAt removeBlockFromHash
  dsimp only
  rw [removeChainAux_checksum]

theorem removeBlockFromHash_blockWrites (p : JobInfo) (s : ScanState) (id : Nat) :
    (removeBlockFromHash p s id).blockWrites = s.blockWrites := rfl

theorem writeBlocks_foldl_checksum (p : JobInfo) (bfrom : Nat) :
    ∀ (ks : List Nat) (st : ScanState) (i : Nat),
      checksumAt (ks.foldl (fun st k =>
        let st2 := removeBlockFromHash p st (bfrom + k)
        { st2 with ranges := addToRanges st2.ranges ((bfrom + k : Nat) : Int) }) st) i
      = checksumAt st i := by
  intro ks
  induction ks with
  | nil => intro st i; rfl
  | cons k tl ih =>
    intro st i
    rw [List.foldl_cons, ih]
    show checksumAt { removeBlockFromHash p st (bfrom + k) with
      ranges := addToRanges (removeBlockFromHash p st (bfrom + k)).ranges ((bfrom + k : Nat) : Int) } i = _
    unfold checksumAt
    dsimp only
    exact removeBlockFromHash_checksum p st (bfrom + k) i

theorem writeBlocks_foldl_blockWrites (p : JobInfo) (bfrom : Nat) :
    ∀ (ks : List Nat) (st : ScanState),
      (ks.foldl (fun st k =>
        let st2 := removeBlockFromHash p st (bfrom + k)
        { st2 with ranges := addToRanges st2.ranges ((bfrom + k : Nat) : Int) }) st).blockWrites
      = st.blockWrites := by
  intro ks
  induction ks with
  | nil => intro st; rfl
  | cons k tl ih =>
    intro st
    rw [List.foldl_cons, ih]
    rfl

theorem writeBlocks_checksum (p : JobInfo) (buf : List Nat) (x bfrom : Nat) (bto : Int)
    (s : ScanState) (i : Nat) :
    checksumAt (writeBlocks p buf x bfrom bto s) i = checksumAt s i := by
  unfold writeBlocks
  dsimp only
  rw [writeBlocks_foldl_checksum]
  rfl

theorem writeBlocks_blockWrites (p : JobInfo) (buf : List Nat) (x bfrom : Nat) (bto : Int)
    (s : ScanState) :
    (writeBlocks p buf x bfrom bto s).blockWrites = s.blockWrites ++
      (List.range ((bto + 1 - (bfrom : Int)).toNat)).map
        (fun k => (bfrom + k, (buf.drop (x + p.blockSize * k)).take p.blockSize)) := by
  unfold writeBlocks
  dsimp only
  rw [writeBlocks_foldl_blockWrites]

theorem verifyFrom_sound (p : JobInfo) (bh : Array HashEntry) (buf : List Nat) (x id : Nat)
    (oo : Bool) :
    ∀ (fuel check cnt : Nat), verifyFrom p bh buf x id oo check fuel = (cnt, true) →
      ∀ k, check ≤ k → k < cnt →
        (md4 ((buf.drop (x + p.blockSize * k)).take p.blockSize)).take p.strongBytes
          = ((bh.getD (id + k) dEntry).checksum).take p.strongBytes := by
  intro fuel
  induction fuel with
  | zero =>
    intro check cnt h
    exact absurd (congrArg Prod.snd h) (by simp [verifyFrom])
  | succ fuel ih =>
    intro check cnt h k hk1 hk2
    rw [verifyFrom] at h
    by_cases hpass : ((md4 ((buf.drop (x + p.blockSize * check)).take p.blockSize)).take p.strongBytes
        == ((bh.getD (id + check) dEntry).checksum).take p.strongBytes) = true
    case pos =>
      rw [if_pos hpass] at h
      have hpeq := eq_of_beq hpass
      by_cases hcont : ¬oo = true ∧ check + 1 < p.seqMatches
      case pos =>
        rw [if_pos hcont] at h
        rcases Nat.eq_or_lt_of_le hk1 with rfl | hlt
        case inl => exact hpeq
        case inr => exact ih (check + 1) cnt h k hlt hk2
      case neg =>
        rw [if_neg hcont] at h
        have hcnt : cnt = check + 1 := (congrArg Prod.fst h).symm
        have : k = check := by omega
        rw [this]
        exact hpeq
    case neg =>
      rw [if_neg hpass] at h
      exact absurd (congrArg Prod.snd h) (by simp)

theorem chainWriteStep_checksum (p : JobInfo) (buf : List Nat) (x : Nat) (oo : Bool)
    (id cnt : Nat) (s1 : ScanState) (i : Nat) :
    checksumAt (chainWriteStep p buf x oo id cnt s1).2 i = checksumAt s1 i := by
  unfold chainWriteStep
  dsimp only
  rw [writeBlocks_checksum]
  repeat' split
  all_goals rfl

theorem chainWriteStep_blockWrites (p : JobInfo) (buf : List Nat) (x : Nat) (oo : Bool)
    (id cnt : Nat) (s1 : ScanState) :
    ∃ m : Nat, m ≤ cnt ∧
      (chainWriteStep p buf x oo id cnt s1).2.blockWrites = s1.blockWrites ++
        (List.range m).map
          (fun k => (id + k, (buf.drop (x + p.blockSize * k)).take p.blockSize)) := by
  unfold chainWriteStep
  dsimp only
  generalize (if oo = true then s1.nNextKnown
    else nextKnownBlock s1.ranges (p.blocks : Int) (id : Int)) = nk
  split
  case isTrue hgt =>
    rw [writeBlocks_blockWrites]
    refine ⟨cnt, le_rfl, ?_⟩
    rw [show ((id : Int) + (cnt : Int) - 1 + 1 - (id : Int)).toNat = cnt from by omega]
  case isFalse hle =>
    rw [writeBlocks_blockWrites]
    refine ⟨(nk - (id : Int)).toNat, by omega, ?_⟩
    rw [show ((id : Int) + (nk - (id : Int)) - 1 + 1 - (id : Int)).toNat
      = (nk - (id : Int)).toNat from by omega]

theorem checkChainAux_checksum (p : JobInfo) (buf : List Nat) (x : Nat) (oo : Bool) :
    ∀ (fuel : Nat) (s : ScanState) (i : Nat),
      checksumAt (checkChainAux p buf x oo fuel s).2 i = checksumAt s i := by
  intro fuel
  induction fuel with
  | zero => intro s i; rfl
  | succ fuel ih =>
    intro s i
    rw [checkChainAux]
    match hrv : s.rover with
    | none => rfl
    | some eIdx =>
      dsimp only
      split
      case isTrue => rw [ih]; rfl
      case isFalse =>
        split
        case isTrue => rw [ih]; rfl
        case isFalse =>
          split
          case isTrue hok =>
            dsimp only
            rw [ih, chainWriteStep_checksum]
            rfl
          case isFalse => rw [ih]; rfl

theorem checkChainAux_writes (p : JobInfo) (buf : List Nat) (x : Nat) (oo : Bool) :
    ∀ (fuel : Nat) (s : ScanState) (w : Nat × List Nat),
      w ∈ (checkChainAux p buf x oo fuel s).2.blockWrites →
      w ∈ s.blockWrites ∨ writeVerified p s w := by
  intro fuel
  induction fuel with
  | zero => intro s w hw; exact Or.inl hw
  | succ fuel ih =>
    intro s w hw
    rw [checkChainAux] at hw
    split at hw
    case h_1 => exact Or.inl hw
    case h_2 eIdx hrv =>
      dsimp only at hw
      split at hw
      case isTrue =>
        rcases ih _ w hw with h | h
        case inl => exact Or.inl h
        case inr => exact Or.inr h
      case isFalse =>
        split at hw
        case isTrue =>
          rcases ih _ w hw with h | h
          case inl => exact Or.inl h
          case inr => exact Or.inr h
        case isFalse =>
          split at hw
          case isTrue hok =>
            dsimp only at hw
            rcases ih _ w hw with h | h
            case inl =>
              obtain ⟨m, hm, heq⟩ := chainWriteStep_blockWrites p buf x oo eIdx
                (verifyFrom p s.blockHashes buf x eIdx oo 0 (p.seqMatches + 1)).1
                { s with rover := if oo = true then none else (s.blockHashes.getD eIdx dEntry).next }
              rw [heq] at h
              rcases List.mem_append.mp h with h2 | h2
              case inl => exact Or.inl h2
              case inr =>
                obtain ⟨k, hk, rfl⟩ := List.mem_map.mp h2
                have hkm := List.mem_range.mp hk
                right
                exact verifyFrom_sound p s.blockHashes buf x eIdx oo (p.seqMatches + 1) 0
                  ((verifyFrom p s.blockHashes buf x eIdx oo 0 (p.seqMatches + 1)).1)
                  (by rw [← hok]) k (Nat.zero_le k) (by omega)
            case inr =>
              right
              unfold writeVerified at h ⊢
              have hc := chainWriteStep_checksum p buf x oo eIdx
                (verifyFrom p s.blockHashes buf x eIdx oo 0 (p.seqMatches + 1)).1
                { s with rover := if oo = true then none else (s.blockHashes.getD eIdx dEntry).next } w.1
              unfold checksumAt at hc
              rw [hc] at h
              exact h
          case isFalse =>
            rcases ih _ w hw with h | h
            case inl => exact Or.inl h
            case inr => exact Or.inr h

/-- Invariant carried through the scanner: checksums unchanged from the
base state and every logged block write either predates the base state
or passed the strong check against the base state's table. -/
def ScanInv (p : JobInfo) (s0 s : ScanState) : Prop :=
  (∀ i, checksumAt s i = checksumAt s0 i) ∧
  (∀ w ∈ s.blockWrites, w ∈ s0.blockWrites ∨ writeVerified p s0 w)

theorem ScanInv_refl (p : JobInfo) (s0 : ScanState) : ScanInv p s0 s0 :=
  ⟨fun _ => rfl, fun _ hw => Or.inl hw⟩

theorem ScanInv_mk (p : JobInfo) (s0 s s' : ScanState) (h : ScanInv p s0 s)
    (hbh : s'.blockHashes = s.blockHashes) (hbw : s'.blockWrites = s.blockWrites) :
    ScanInv p s0 s' := by
  constructor
  case left =>
    intro i
    unfold checksumAt
    rw [hbh]
    exact h.1 i
  case right =>
    intro w hw
    rw [hbw] at hw
    exact h.2 w hw

theorem writeVerified_transfer (p : JobInfo) (s0 s : ScanState) (w : Nat × List Nat)
    (hcs : ∀ i, checksumAt s i = checksumAt s0 i) (h : writeVerified p s w) :
    writeVerified p s0 w := by
  unfold writeVerified at h ⊢
  have := hcs w.1
  unfold checksumAt at this
  rw [this] at h
  exact h

theorem ScanInv_chainCall (p : JobInfo) (buf : List Nat) (x : Nat) (oo : Bool) (e : Nat)
    (s0 s : ScanState) (h : ScanInv p s0 s) :
    ScanInv p s0 (checkCheckSumsOnHashChain p buf x oo e s).2 := by
  unfold checkCheckSumsOnHashChain
  constructor
  case left =>
    intro i
    rw [checkChainAux_checksum]
    exact h.1 i
  case right =>
    intro w hw
    rcases checkChainAux_writes p buf x oo _ _ w hw with h2 | h2
    case inl => exact h.2 w h2
    case inr =>
      right
      refine writeVerified_transfer p s0 _ w h.1 ?_
      exact writeVerified_transfer p _ _ w (fun i => rfl) h2

theorem ssdFirstTry_inv (p : JobInfo) (buf : List Nat) (x : Nat) (s0 s : ScanState)
    (hinv : ScanInv p s0 s) : ScanInv p s0 (ssdFirstTry p buf x s).2.2 := by
  unfold ssdFirstTry
  match s.nextMatch with
  | none => exact hinv
  | some nm =>
    dsimp only
    split
    case isTrue =>
      split
      case isTrue => exact ScanInv_chainCall p buf x true nm s0 s hinv
      case isFalse => exact ScanInv_chainCall p buf x true nm s0 s hinv
    case isFalse => exact hinv

theorem ssdLookup_inv (p : JobInfo) (buf : List Nat) (x : Nat) (s0 s1 : ScanState)
    (hinv : ScanInv p s0 s1) : ScanInv p s0 (ssdLookup p buf x s1).2.2 := by
  unfold ssdLookup
  dsimp only
  split
  all_goals split
  all_goals
    first
    | exact hinv
    | split
  all_goals
    first
    | exact hinv
    | split
  all_goals
    first
    | exact hinv
    | exact ScanInv_chainCall p buf x false _ s0 s1 hinv

theorem ssdIter_inv (p : JobInfo) (buf : List Nat) (x : Nat) (s0 s : ScanState)
    (hinv : ScanInv p s0 s) : ScanInv p s0 (ssdIter p buf x s).2.2 := by
  unfold ssdIter
  dsimp only
  split
  case isTrue => exact ssdLookup_inv p buf x s0 _ (ssdFirstTry_inv p buf x s0 s hinv)
  case isFalse => exact ssdFirstTry_inv p buf x s0 s hinv

theorem submitSourceDataLoop_inv (p : JobInfo) (buf : List Nat) (len : Nat) (s0 : ScanState) :
    ∀ (fuel x : Nat) (got : Int) (s : ScanState) (res : Int × ScanState),
      submitSourceDataLoop p buf len fuel x got s = some res →
      ScanInv p s0 s → ScanInv p s0 res.2 := by
  intro fuel
  induction fuel with
  | zero =>
    intro x got s res h _
    exact absurd h (by simp [submitSourceDataLoop])
  | succ fuel ih =>
    intro x got s res h hinv
    rw [submitSourceDataLoop] at h
    split at h
    case isTrue =>
      cases h
      exact hinv
    case isFalse =>
      dsimp only at h
      repeat' split at h
      all_goals
        first
        | (cases h
           exact ScanInv_mk p s0 _ _ (ssdIter_inv p buf x s0 s hinv) rfl rfl)
        | exact ih _ _ _ _ h (ScanInv_mk p s0 _ _ (ssdIter_inv p buf x s0 s hinv) rfl rfl)

theorem submitSourceData_inv (p : JobInfo) (fuel : Nat) (buf : List Nat) (len offset : Nat)
    (s0 s : ScanState) (res : Int × ScanState)
    (h : submitSourceData p fuel buf len offset s = some res) (hinv : ScanInv p s0 s) :
    ScanInv p s0 res.2 := by
  unfold submitSourceData at h
  apply submitSourceDataLoop_inv p buf len s0 _ _ _ _ _ h
  repeat' split
  all_goals exact ScanInv_mk p s0 _ s hinv rfl rfl

theorem buildHashInsert_checksum (p : JobInfo) (hm bm : Nat) :
    ∀ (n : Nat) (bh : Array HashEntry) (rh : Array (Option Nat)) (bit : Array Nat) (i : Nat),
      (((buildHashInsert p hm bm n bh rh bit).1).getD i dEntry).checksum
        = ((bh.getD i dEntry)).checksum := by
  intro n
  induction n with
  | zero => intro bh rh bit i; rfl
  | succ n ih =>
    intro bh rh bit i
    rw [buildHashInsert]
    rw [ih]
    rw [getD_setD_entry]
    split
    case isTrue hcond => rw [hcond.1]
    case isFalse => rfl

theorem buildHash_inv (p : JobInfo) (s : ScanState) : ScanInv p s (buildHash p s) := by
  constructor
  case left =>
    intro i
    unfold checksumAt buildHash
    dsimp only
    rw [buildHashInsert_checksum]
  case right =>
    intro w hw
    exact Or.inl hw

theorem submitSourceFileLoop_inv (p : JobInfo) (seed : List Nat) (dfuel : Nat)
    (s0 : ScanState) :
    ∀ (ffuel pos inOff : Nat) (buf : List Nat) (got : Int) (s : ScanState)
      (res : Int × ScanState),
      submitSourceFileLoop p seed dfuel ffuel pos inOff buf got s = some res →
      ScanInv p s0 s → ScanInv p s0 res.2 := by
  intro ffuel
  induction ffuel with
  | zero =>
    intro pos inOff buf got s res h _
    exact absurd h (by simp [submitSourceFileLoop])
  | succ ffuel ih =>
    intro pos inOff buf got s res h hinv
    rw [submitSourceFileLoop] at h
    split at h
    case isTrue =>
      cases h
      exact hinv
    case isFalse =>
      dsimp only at h
      repeat' split at h
      all_goals
        first
        | (cases h)
        | exact ih _ _ _ _ _ _ h
            (submitSourceData_inv p dfuel _ _ _ s0 s _ (by assumption) hinv)

/-- C2: every per-block write the seed scan logs — along both the
only_one fast path and the full chain walk, all of which funnel through
checkCheckSumsOnHashChain into writeBlocks — either predates the scan or
carries bytes whose MD4 digest agrees in its first strongBytes bytes with
the checksum stored for that block id; no block is written without
passing the strong-checksum comparison. -/
theorem c2_writes_pass_strong_check (p : JobInfo) (dfuel ffuel : Nat) (seed : List Nat)
    (s : ScanState) (gs : Int × ScanState)
    (hrun : submitSourceFile p dfuel ffuel seed s = some gs) :
    ∀ w ∈ gs.2.blockWrites, w ∈ s.blockWrites ∨
      (md4 w.2).take p.strongBytes
        = ((s.blockHashes.getD w.1 dEntry).checksum).take p.strongBytes := by
  have hinv0 : ScanInv p s (if ¬s.hashBuilt then buildHash p s else s) := by
    split
    case isTrue => exact buildHash_inv p s
    case isFalse => exact ScanInv_refl p s
  unfold submitSourceFile at hrun
  have hres := submitSourceFileLoop_inv p seed dfuel s _ _ _ _ _ _ _ hrun hinv0
  intro w hw
  rcases hres.2 w hw with h | h
  case inl => exact Or.inl h
  case inr => exact Or.inr h

set_option maxRecDepth 1000000 in
theorem c2_witness :
    ((0, [65, 0, 0, 0]) ∈
        ((submitSourceFile pTiny 1000 100 [65] sTinyParsed).getD (0, sTinyParsed)).2.blockWrites) ∧
      ((0, ([65, 0, 0, 0] : List Nat)) ∈ sTinyParsed.blockWrites ∨
        (md4 [65, 0, 0, 0]).take pTiny.strongBytes
          = ((sTinyParsed.blockHashes.getD 0 dEntry).checksum).take pTiny.strongBytes) :=
  ⟨by decide,
   c2_writes_pass_strong_check pTiny 1000 100 [65] sTinyParsed
     ((submitSourceFile pTiny 1000 100 [65] sTinyParsed).getD (0, sTinyParsed))
     (by rfl) (0, [65, 0, 0, 0]) (by decide)⟩

theorem submitSourceDataLoop_isSome (p : JobInfo) (buf : List Nat) (len : Nat)
    (hbs : 1 ≤ p.blockSize) :
    ∀ (fuel x : Nat) (got : Int) (s : ScanState),
      x + contextOf p ≤ len → len - x < fuel →
      (submitSourceDataLoop p buf len fuel x got s).isSome = true := by
  intro fuel
  induction fuel with
  | zero =>
    intro x got s _ hf
    exact absurd hf (Nat.not_lt_zero _)
  | succ fuel ih =>
    intro x got s hx hf
    rw [submitSourceDataLoop]
    split
    case isTrue => rfl
    case isFalse hne =>
      dsimp only
      split
      case isTrue hbm =>
        split
        all_goals split
        all_goals
          first
          | rfl
          | (apply ih
             all_goals omega)
      case isFalse =>
        apply ih
        all_goals omega

/-- C10: the scanner loop of submitSourceData terminates whenever the
starting window fits, i.e. the initial position x (the carried skip for a
continued stream, 0 for a fresh one) satisfies x + context ≤ len: each
iteration returns or strictly advances x, so any fuel beyond len suffices
and the loop result is some rather than fuel exhaustion. -/
theorem c10_submitSourceData_terminates (p : JobInfo) (buf : List Nat) (len offset : Nat)
    (s : ScanState) (fuel : Nat) (hbs : 1 ≤ p.blockSize)
    (hx : (if offset ≠ 0 then s.skip else 0) + contextOf p ≤ len)
    (hfuel : len < fuel) :
    (submitSourceData p fuel buf len offset s).isSome = true := by
  unfold submitSourceData
  exact submitSourceDataLoop_isSome p buf len hbs fuel _ 0 _ hx (by omega)

theorem c10_witness :
    (submitSourceData pTiny 5 targetTiny 4 0 sTinyParsed).isSome = true :=
  c10_submitSourceData_terminates pTiny targetTiny 4 0 sTinyParsed 5
    (by decide) (by decide) (by decide)

theorem submitSourceData_isSome (p : JobInfo) (buf : List Nat) (len offset : Nat)
    (s : ScanState) (fuel : Nat) (hbs : 1 ≤ p.blockSize)
    (hx : (if offset ≠ 0 then s.skip else 0) + contextOf p ≤ len)
    (hfuel : len < fuel) :
    (submitSourceData p fuel buf len offset s).isSome = true := by
  unfold submitSourceData
  exact submitSourceDataLoop_isSome p buf len hbs fuel _ 0 _ hx (by omega)

theorem submitSourceFileLoop_short_isSome (p : JobInfo) (dfuel f : Nat) (seed : List Nat)
    (s1 : ScanState) (hshort : seed.length < contextOf p)
    (hctx : contextOf p ≤ p.blockSize * 16) (hbs : 1 ≤ p.blockSize)
    (hd : seed.length + contextOf p < dfuel) :
    (submitSourceFileLoop p seed dfuel (f + 2) 0 0 [] 0 s1).isSome = true := by
  rw [submitSourceFileLoop]
  split
  case isTrue => rfl
  case isFalse hpos =>
    dsimp only
    rw [if_pos rfl]
    have hseedtake : (seed.drop 0).take (p.blockSize * 16) = seed := by
      rw [List.drop_zero]
      exact List.take_of_length_le (by omega)
    rw [hseedtake]
    dsimp only
    simp only [if_pos (by omega : 0 + seed.length ≥ seed.length)]
    have hsome := submitSourceData_isSome p (seed ++ List.replicate (contextOf p) 0)
      (seed.length + contextOf p) 0 s1 dfuel hbs (by simp) (by omega)
    obtain ⟨gs, hgs⟩ : ∃ gs,
        submitSourceData p dfuel (seed ++ List.replicate (contextOf p) 0)
          (seed.length + contextOf p) 0 s1 = some gs := by
      cases hcase : submitSourceData p dfuel (seed ++ List.replicate (contextOf p) 0)
          (seed.length + contextOf p) 0 s1 with
      | none => rw [hcase] at hsome; exact absurd hsome (by simp)
      | some gs => exact ⟨gs, rfl⟩
    rw [hgs]
    dsimp only
    rw [submitSourceFileLoop]
    rw [if_pos (by omega : 0 + seed.length ≥ seed.length)]
    rfl

theorem submitSourceFile_short_seed_isSome (p : JobInfo) (dfuel f : Nat) (seed : List Nat)
    (s : ScanState) (hshort : seed.length < contextOf p)
    (hctx : contextOf p ≤ p.blockSize * 16) (hbs : 1 ≤ p.blockSize)
    (hd : seed.length + contextOf p < dfuel) :
    (submitSourceFile p dfuel (f + 2) seed s).isSome = true := by
  unfold submitSourceFile
  exact submitSourceFileLoop_short_isSome p dfuel f seed _ hshort hctx hbs hd

set_option maxRecDepth 1000000 in
/-- C9 counterexample: the one-block job pTiny (block size 4, context 4)
with the one-byte seed "A" — strictly shorter than context — still writes
block 0: the final refill zero-pads the buffer by context bytes, the
padded window [65,0,0,0] equals the target block, and submitSourceFile
returns got = 1 with the write (0, [65,0,0,0]) logged, refuting the
zero-writes half of the claim. -/
theorem c9_counterexample_short_seed_writes :
    ([65] : List Nat).length < contextOf pTiny ∧
    (submitSourceFile pTiny 1000 100 [65] sTinyParsed).map
        (fun gs => (gs.1, gs.2.blockWrites)) = some (1, [(0, [65, 0, 0, 0])]) :=
  ⟨by decide, by rfl⟩

/-- C9 (amended): what the code guarantees for a seed shorter than
context bytes is clean termination — the single zero-padded refill scans
to completion and submitSourceFile returns some — while zero writes hold
only for the empty seed, which leaves the write log unchanged and
returns got = 0. -/
theorem c9_amended_short_seed (p : JobInfo) (dfuel f : Nat) (seed : List Nat)
    (s : ScanState) (hshort : seed.length < contextOf p)
    (hctx : contextOf p ≤ p.blockSize * 16) (hbs : 1 ≤ p.blockSize)
    (hd : seed.length + contextOf p < dfuel) :
    (submitSourceFile p dfuel (f + 2) seed s).isSome = true ∧
      (submitSourceFile p dfuel (f + 2) ([] : List Nat) s
          = some (0, if ¬s.hashBuilt then buildHash p s else s) ∧
        (if ¬s.hashBuilt then buildHash p s else s).blockWrites = s.blockWrites) := by
  refine ⟨submitSourceFile_short_seed_isSome p dfuel f seed s hshort hctx hbs hd, ?_, ?_⟩
  case refine_1 =>
    unfold submitSourceFile
    rw [submitSourceFileLoop]
    rw [if_pos (by simp : (0 : Nat) ≥ ([] : List Nat).length)]
  case refine_2 =>
    split
    case isTrue => rfl
    case isFalse => rfl

set_option maxRecDepth 1000000 in
theorem c9_amended_witness :
    (submitSourceFile pTiny 6 3 [65] sTinyParsed).isSome = true ∧
      (submitSourceFile pTiny 6 3 ([] : List Nat) sTinyParsed
          = some (0, if ¬sTinyParsed.hashBuilt then buildHash pTiny sTinyParsed
              else sTinyParsed) ∧
        (if ¬sTinyParsed.hashBuilt then buildHash pTiny sTinyParsed
            else sTinyParsed).blockWrites = sTinyParsed.blockWrites) :=
  c9_amended_short_seed pTiny 6 1 [65] sTinyParsed (by decide) (by decide) (by decide)
    (by decide)

set_option maxRecDepth 1000000 in
/-- C1 counterexample: the four-block job pCx whose target aaaabcab has
block 0 equal to block 1 ("aa").  With the seed byte-identical to the
target the run returns got_blocks = 3, not blocks = 4, and a non-null
required_ranges: the hash chain keeps one entry per distinct rsum bucket
insertion order, and after the first "aa" match removeBlockFromHash
unlinks the block so its duplicate is never matched again.  This refutes
the for-every-job claim. -/
theorem c1_seed_identical_counterexample :
    (runJob pCx (some streamCx) true (some targetCx) true true 1000 100).map
        (fun rs => (rs.1.gotBlocks, rs.1.requiredRanges.isNone))
      = some (3, false) ∧ (pCx.blocks : Int) = 4 :=
  ⟨by rfl, by rfl⟩

set_option maxRecDepth 1000000 in
/-- C1 (amended): for the spec's literal scenario — block size 4, four
distinct blocks ABCD EFGH IJKL MNOP, seed identical to the target — the
run returns errorCode 0, got_blocks = 4 = blocks, a null
required_ranges, and the write log reproduces every one of the 16 target
bytes. -/
theorem c1_amended_scenario_identical_seed :
    (runJob pScen (some streamScen) true (some targetScen) true true 1000 100).map
        (fun rs => (rs.1.errorCode, rs.1.gotBlocks, rs.1.requiredRanges,
          (List.range 16).all (fun o =>
            applyWrites rs.2.file.writes (o : Int) == some (targetScen.getD o 0))))
      = some (0, 4, none, true) := by rfl

set_option maxRecDepth 1000000 in
/-- C3: with an empty seed the scenario job returns got_blocks = 0, but
the single reported pair is ((0, 4), five checksum lists: the four
per-block MD4 digests followed by an all-zero sentinel), not the claimed
inclusive ((0, 3), four digests): getRequiredRanges seeds its scratch
pair with (blockIdOffset, blocks + blockIdOffset) — a half-open upper
bound — yet consumers read the pairs as inclusive, and the checksum copy
loop runs to the half-open bound over the blocks + seq_matches entry
array, dragging in the zero-filled sentinel checksum. -/
theorem c3_empty_seed_actual_output :
    ((runJob pScen (some streamScen) true (some []) true true 1000 100).map
        (fun rs => (rs.1.gotBlocks, rs.1.requiredRanges))
      = some (0, some [((0, 4),
          ((targetBlocks pScen targetScen).map (fun b => (md4 b).take pScen.strongBytes))
            ++ [List.replicate 16 0])])) ∧
    ¬ ((runJob pScen (some streamScen) true (some []) true true 1000 100).map
        (fun rs => rs.1.requiredRanges)
      = some (some [((0, 3),
          (targetBlocks pScen targetScen).map (fun b => (md4 b).take pScen.strongBytes))])) :=
  ⟨by rfl, by decide⟩
